import Mathlib

/-!
Verification of the order-statistics module (`cupy/statistics/order.py`).

The module computes `amin`, `amax`, `nanmin`, `nanmax` and `percentile`
over dense N-dimensional arrays.  We embed the code shallowly:

* an `NDArray` is a dtype, a shape and a flat C-order data buffer of
  rational values (machine floats are modelled by `ℚ`; the rank
  arithmetic `q * 0.01 * (Nx - 1.)` is exact at the boundary values the
  claims exercise);
* fallible steps return `Except PErr`; a read past the end of the
  working buffer (undefined behaviour in the CUDA kernel) is modelled
  as the error `PErr.oobRead`;
* the axis-permutation loop (`a.swapaxes(i, s)`) is modelled by `View`s
  that precompose the coordinate lookup with a position swap, exactly as
  a numpy view does, and `.copy()` materializes the view in C order.

The external collaborators (the base min/max reducer behind
`a.min`/`a.max`/`core.nanmin`/`core.nanmax`) are not part of the source
file; where a claim needs them they are modelled from the spec and
marked as such.
-/

inductive DType
  | int32
  | float64
deriving DecidableEq, Repr

/-- Errors raised by the embedded code.  Python raises `ValueError` with
distinct messages for the quantile-shape check, the `nearest` branch and
the unknown-interpolation branch; `TypeError` when iterating an `int`
axis; `ZeroDivisionError` on `ax % 0`.  Out-of-bounds raw reads in the
CUDA kernel (undefined behaviour) are modelled as `oobRead`, and
out-of-range `take` indices as `indexError`. -/
inductive PErr
  | invalidQuantileShape
  | typeError
  | zeroDivision
  | unsupportedInterpolation
  | invalidInterpolation
  | indexError
  | oobRead
  | valueError
  | reshapeError
deriving DecidableEq, Repr

/-- A dense array: dtype, shape, and the flat C-order buffer. -/
structure NDArray where
  dtype : DType
  shape : List ℕ
  data : List ℚ
deriving DecidableEq, Repr

/-- The `q` argument of `percentile` as an array (shape plus data),
so that 0-d / 1-d / higher-d inputs are distinguishable. -/
structure QArr where
  shape : List ℕ
  data : List ℚ
deriving DecidableEq, Repr

/-- The `axis` argument: `None`, a single integer, or a tuple. -/
inductive AxisArg
  | noneAx
  | intAx (i : ℤ)
  | tupAx (l : List ℤ)
deriving DecidableEq, Repr

deriving instance DecidableEq for Except

attribute [local semireducible] Rat.add Rat.sub Rat.mul Rat.inv

/-- C-cast of a float to an integer dtype truncates toward zero;
`cupy.asarray(q, dtype=a.dtype)` applies it elementwise. -/
def ratTrunc (x : ℚ) : ℚ :=
  if 0 ≤ x then ((⌊x⌋ : ℤ) : ℚ) else ((⌈x⌉ : ℤ) : ℚ)

/-- `cupy.asarray(q, dtype=a.dtype)` on one element. -/
def castQ : DType → ℚ → ℚ
  | DType.int32, x => ratTrunc x
  | DType.float64, x => x

/-- Row-major (C-order) flat index of a coordinate tuple. -/
def flattenIdx : List ℕ → List ℕ → ℕ
  | _ :: ds, c :: cs => c * ds.prod + flattenIdx ds cs
  | _, _ => 0

/-- Inverse of `flattenIdx`: the coordinate tuple of a flat index. -/
def unflatten : List ℕ → ℕ → List ℕ
  | [], _ => []
  | _ :: ds, k => k / ds.prod :: unflatten ds (k % ds.prod)

/-- Swap the entries at positions `i` and `j` of a list. -/
def swapList (i j : ℕ) (l : List ℕ) : List ℕ :=
  (l.set i (l.getD j 0)).set j (l.getD i 0)

/-- A strided view of an array: a shape together with a coordinate
lookup function (as numpy views are, no data is copied). -/
structure View where
  vshape : List ℕ
  vget : List ℕ → ℚ

/-- The identity view of an array's buffer. -/
def NDArray.toView (a : NDArray) : View :=
  ⟨a.shape, fun c => a.data.getD (flattenIdx a.shape c) 0⟩

/-- `a.swapaxes(i, j)`: a view whose axes `i` and `j` are exchanged. -/
def View.swapaxes (v : View) (i j : ℕ) : View :=
  ⟨swapList i j v.vshape, fun c => v.vget (swapList i j c)⟩

/-- `.copy()` of a view: materialize it into a C-order flat buffer. -/
def View.materialize (v : View) : List ℚ :=
  (List.range v.vshape.prod).map (fun k => v.vget (unflatten v.vshape k))

/-- `ap.sort(axis=-1)` sorts each length-`N` row of the flat working
buffer ascending; `K` is the number of rows. -/
def sortRow (l : List ℚ) : List ℚ := List.insertionSort (· ≤ ·) l

def sortRows (K N : ℕ) (d : List ℚ) : List ℚ :=
  ((List.range K).map (fun t => sortRow ((d.drop (t * N)).take N))).flatten

/-- Elementwise map over a list in the `Except` monad (the loop of an
elementwise kernel: the first failing element aborts the call). -/
def mapE (f : α → Except PErr β) : List α → Except PErr (List β)
  | [] => Except.ok []
  | x :: xs =>
    match f x with
    | Except.error e => Except.error e
    | Except.ok y =>
      match mapE f xs with
      | Except.error e => Except.error e
      | Except.ok ys => Except.ok (y :: ys)

/-- Lines 144-152: cast `q` to `a.dtype`, promote a 0-d `q` to 1-d
(recording `zerod`), and reject `q.ndim > 1`. -/
def qPrep (dt : DType) (q : QArr) : Except PErr (List ℚ × Bool) :=
  if q.shape.length > 1 then Except.error PErr.invalidQuantileShape
  else Except.ok (q.data.map (castQ dt), q.shape.isEmpty)

/-- Python `ax % ndim` for the (possibly negative) axis index `ax`:
Euclidean remainder, then a natural number since `ndim > 0` forces the
result into `[0, ndim)`. -/
def normAxes (ndim : ℕ) (l : List ℤ) : List ℕ :=
  l.map (fun ax => (ax.emod (ndim : ℤ)).toNat)

/-- Lines 154-161: the `keepdims` shape.  Note the loop `for ax in axis`
runs on the raw `axis` argument, before the `int → tuple` conversion of
lines 164-165, so a bare `int` axis raises `TypeError` here; `ax % 0`
raises `ZeroDivisionError`. -/
def keepdimCalc (shape : List ℕ) (axis : AxisArg) (keepdims : Bool) :
    Except PErr (Option (List ℕ)) :=
  if keepdims then
    match axis with
    | AxisArg.noneAx => Except.ok (some (List.replicate shape.length 1))
    | AxisArg.intAx _ => Except.error PErr.typeError
    | AxisArg.tupAx l =>
      if shape.length = 0 ∧ l ≠ [] then Except.error PErr.zeroDivision
      else
        Except.ok (some (l.foldl
          (fun kd ax => kd.set (ax.emod (shape.length : ℤ)).toNat 1) shape))
  else Except.ok Option.none

/-- The axes kept (not reduced), ascending: `sorted(set(range(ndim)) -
set(axis))`. -/
def keptAxes (ndim : ℕ) (axN : List ℕ) : List ℕ :=
  (List.range ndim).filter (fun i => decide (i ∉ axN))

/-- Lines 169-176 for a tuple axis: normalize the axes, move the kept
axes to the front by the iterated `swapaxes(i, s)` loop, then
reshape to `(kept-shape..., -1)` and `.copy()`.  Returns the kept
shape, the reduction length `Nx`, and the flat working buffer. -/
def axisPrepTup (a : NDArray) (l : List ℤ) :
    Except PErr (List ℕ × ℕ × List ℚ) :=
  if a.shape.length = 0 ∧ l ≠ [] then Except.error PErr.zeroDivision
  else
    let axN := normAxes a.shape.length l
    let keepL := keptAxes a.shape.length axN
    let nkeep := keepL.length
    let v := keepL.enum.foldl (fun w p => View.swapaxes w p.1 p.2) a.toView
    Except.ok (v.vshape.take nkeep, (v.vshape.drop nkeep).prod, v.materialize)

/-- Lines 163-176: `axis=None` flattens (a copy); an `int` axis becomes
a 1-tuple; a tuple axis goes through the swap-and-reshape path. -/
def axisPrep (a : NDArray) : AxisArg → Except PErr (List ℕ × ℕ × List ℚ)
  | AxisArg.noneAx => Except.ok ([], a.shape.prod, a.data)
  | AxisArg.intAx i => axisPrepTup a [i]
  | AxisArg.tupAx l => axisPrepTup a l

/-- Line 181: `indices = q * 0.01 * (Nx - 1.)` for one quantile. -/
def rankOf (N : ℕ) (x : ℚ) : ℚ := x * (1 / 100) * ((N : ℚ) - 1)

/-- The `take` path (`lower`/`higher`): for integer index `i`, gather
`sorted[t, i]` for every row `t`.  An index outside `[0, Nx)` is an
error. -/
def gatherIdx (sorted : List ℚ) (N K : ℕ) (i : ℤ) : Except PErr (List ℚ) :=
  mapE (fun t =>
    if 0 ≤ i ∧ i < (N : ℤ) then
      match sorted[t * N + i.toNat]? with
      | some v => Except.ok v
      | none => Except.error PErr.indexError
    else Except.error PErr.indexError) (List.range K)

/-- One evaluation of the `percentile_weightnening` kernel body:
`idx_below = floor(idx)`, `weight_above = idx - idx_below`, then the
two raw reads `a[offset_i + idx_below]` and `a[offset_i + idx_below + 1]`
are both performed unconditionally; a read outside the working buffer is
undefined behaviour, modelled as `oobRead`. -/
def blendOne (sorted : List ℚ) (off : ℕ) (x : ℚ) : Except PErr ℚ :=
  let b : ℤ := ⌊x⌋
  if 0 ≤ b then
    match sorted[off + b.toNat]?, sorted[off + b.toNat + 1]? with
    | some v1, some v2 =>
      Except.ok (v1 * (1 - (x - (b : ℚ))) + v2 * (x - (b : ℚ)))
    | _, _ => Except.error PErr.oobRead
  else Except.error PErr.oobRead

/-- The weighted-blend path (`linear`/`midpoint`): the kernel is run for
every row `t`, with row offset `_ind.get()[0] * offset` where `offset`
is `ap.shape[-1]` if `ap.ndim > 1` else `0` (line 220). -/
def blendIdx (sorted : List ℚ) (N K nkeep : ℕ) (x : ℚ) :
    Except PErr (List ℚ) :=
  let off := if nkeep + 1 > 1 then N else 0
  mapE (fun t => blendOne sorted (t * off) x) (List.range K)

/-- Lines 183-221: dispatch on the interpolation string, then gather
(`lower`/`higher`, result dtype of the input) or blend
(`midpoint`/`linear`, result dtype float64).  The result list is
quantile-major, as after `rollaxis`. -/
def dispatchGather (dt : DType) (interpolation : String) (sorted : List ℚ)
    (N K nkeep : ℕ) (ranks : List ℚ) : Except PErr (DType × List ℚ) :=
  if interpolation = "lower" then
    (mapE (fun r => gatherIdx sorted N K ⌊r⌋) ranks).map
      (fun rows => (dt, rows.flatten))
  else if interpolation = "higher" then
    (mapE (fun r => gatherIdx sorted N K ⌈r⌉) ranks).map
      (fun rows => (dt, rows.flatten))
  else if interpolation = "midpoint" then
    (mapE (fun r => blendIdx sorted N K nkeep (((⌊r⌋ + ⌈r⌉ : ℤ) : ℚ) / 2))
        ranks).map
      (fun rows => (DType.float64, rows.flatten))
  else if interpolation = "nearest" then
    Except.error PErr.unsupportedInterpolation
  else if interpolation = "linear" then
    (mapE (fun r => blendIdx sorted N K nkeep r) ranks).map
      (fun rows => (DType.float64, rows.flatten))
  else Except.error PErr.invalidInterpolation

/-- Lines 223-230: drop the leading quantile axis when `q` was 0-d
(`squeeze(0)`), then reshape to the keepdims shape (prepending `-1`
when `q.size > 1`), and return a contiguous array. -/
def assemble (dt : DType) (k : ℕ) (kept : List ℕ) (zerod : Bool)
    (keepdim : Option (List ℕ)) (data : List ℚ) : Except PErr NDArray :=
  match (if zerod then
           (if k = 1 then Except.ok kept else Except.error PErr.valueError)
         else Except.ok (k :: kept) : Except PErr (List ℕ)) with
  | Except.error e => Except.error e
  | Except.ok shp =>
    match keepdim with
    | Option.none => Except.ok ⟨dt, shp, data⟩
    | some kd =>
      if k > 1 then
        if kd.prod = 0 ∨ ¬ (kd.prod ∣ data.length) then
          Except.error PErr.reshapeError
        else Except.ok ⟨dt, data.length / kd.prod :: kd, data⟩
      else
        if data.length = kd.prod then Except.ok ⟨dt, kd, data⟩
        else Except.error PErr.reshapeError

/-- `percentile(a, q, axis, out=None, interpolation, keepdims)`,
lines 120-230 of `cupy/statistics/order.py`. -/
def percentile (a : NDArray) (q : QArr) (axis : AxisArg)
    (interpolation : String) (keepdims : Bool) : Except PErr NDArray :=
  match qPrep a.dtype q with
  | Except.error e => Except.error e
  | Except.ok (qd, zerod) =>
    match keepdimCalc a.shape axis keepdims with
    | Except.error e => Except.error e
    | Except.ok keepdim =>
      match axisPrep a axis with
      | Except.error e => Except.error e
      | Except.ok (kept, N, apRaw) =>
        let sorted := sortRows kept.prod N apRaw
        match dispatchGather a.dtype interpolation sorted N
            kept.prod kept.length (qd.map (rankOf N)) with
        | Except.error e => Except.error e
        | Except.ok (dt, data) => assemble dt qd.length kept zerod keepdim data

/-- The `t`-th row of the sorted working buffer (as a list). -/
def rowAt (N : ℕ) (d : List ℚ) (t : ℕ) : List ℚ :=
  sortRow ((d.drop (t * N)).take N)

/-- Apply a position-permutation list: entry `p` of the result is entry
`P p` of `l` (proof-side device for reasoning about the swap loop). -/
def applyP (P : List ℕ) (l : List ℕ) : List ℕ :=
  P.map (fun s => l.getD s 0)

/-- The net coordinate map of the `swapaxes` loop, as a list of source
positions: applying the swaps (first pair outermost) to `range n`. -/
def swapPerm (pairs : List (ℕ × ℕ)) (n : ℕ) : List ℕ :=
  pairs.foldr (fun pr acc => swapList pr.1 pr.2 acc) (List.range n)

/-- The shape of the kept axes, read from the original array. -/
def keptShapeOf (a : NDArray) (axN : List ℕ) : List ℕ :=
  (keptAxes a.shape.length axN).map (fun i => a.shape.getD i 0)

/-- Observation used by the claims: the (unsorted) values of the
reduction slice of `a` whose kept-axis coordinates are the `t`-th tuple
(in C order) of the kept shape: all elements of `a` whose coordinates
agree with that tuple on every kept axis. -/
def sliceVals (a : NDArray) (axN : List ℕ) (t : ℕ) : List ℚ :=
  let ks := keptAxes a.shape.length axN
  let tc := unflatten (keptShapeOf a axN) t
  ((List.range a.shape.prod).filter
    (fun f => decide (ks.map (fun p => (unflatten a.shape f).getD p 0) = tc))).map
    (fun f => a.data.getD f 0)

/-- `sliceVals` for each form of the `axis` argument (`axis=None`
reduces the whole flattened array, so the only slice is all of `a`). -/
def sliceValsArg (a : NDArray) (axis : AxisArg) (t : ℕ) : List ℚ :=
  match axis with
  | AxisArg.noneAx => a.data
  | AxisArg.intAx i => sliceVals a (normAxes a.shape.length [i]) t
  | AxisArg.tupAx l => sliceVals a (normAxes a.shape.length l) t

/-- The number of reduction slices (product of the kept-axis sizes). -/
def keptProdArg (a : NDArray) : AxisArg → ℕ
  | AxisArg.noneAx => 1
  | AxisArg.intAx i => (keptShapeOf a (normAxes a.shape.length [i])).prod
  | AxisArg.tupAx l => (keptShapeOf a (normAxes a.shape.length l)).prod

def listMin : List ℚ → Option ℚ
  | [] => Option.none
  | x :: xs => some (xs.foldl min x)

def listMax : List ℚ → Option ℚ
  | [] => Option.none
  | x :: xs => some (xs.foldl max x)

/-- Modelled from the spec: `amin` (lines 9-34) is a pure pass-through
to the external base reducer `a.min` (out of scope per §1; contract per
§4.7/§6): one minimum per reduction slice.  Result as the flat list of
per-slice minima; the `out`/`keepdims`/`dtype` bookkeeping of the base
reducer is not needed by the claims. -/
def amin (a : NDArray) (axis : AxisArg) : List ℚ :=
  (List.range (keptProdArg a axis)).map
    (fun t => (listMin (sliceValsArg a axis t)).getD 0)

/-- Modelled from the spec: `amax` (lines 37-62), dual to `amin`. -/
def amax (a : NDArray) (axis : AxisArg) : List ℚ :=
  (List.range (keptProdArg a axis)).map
    (fun t => (listMax (sliceValsArg a axis t)).getD 0)

/-- A floating value: NaN or an ordinary number. -/
inductive FV
  | nan
  | val (x : ℚ)
deriving DecidableEq, Repr

def FV.isNan : FV → Bool
  | FV.nan => true
  | FV.val _ => false

def nonNanVals (s : List FV) : List ℚ :=
  s.filterMap (fun v => match v with | FV.nan => Option.none | FV.val x => some x)

/-- Modelled from the spec: the external NaN-ignoring base reducer
`core.nanmin` (§4.7): per reduced slice, the minimum of the non-NaN
values, or NaN when the slice has none.  The input is the list of
reduction slices (axis handling is delegated entirely to this base
reducer). -/
def coreNanmin (slices : List (List FV)) : List FV :=
  slices.map (fun s =>
    match listMin (nonNanVals s) with
    | Option.none => FV.nan
    | some m => FV.val m)

/-- Modelled from the spec: the external `core.nanmax`, dual. -/
def coreNanmax (slices : List (List FV)) : List FV :=
  slices.map (fun s =>
    match listMax (nonNanVals s) with
    | Option.none => FV.nan
    | some m => FV.val m)

/-- `nanmin` (lines 65-88): delegate to `core.nanmin`, then emit one
`RuntimeWarning` for the whole call if any element of the result is
NaN.  Returns the result and the number of warnings emitted. -/
def nanmin (slices : List (List FV)) : List FV × ℕ :=
  let res := coreNanmin slices
  (res, if res.any FV.isNan then 1 else 0)

/-- `nanmax` (lines 91-114): dual to `nanmin`. -/
def nanmax (slices : List (List FV)) : List FV × ℕ :=
  let res := coreNanmax slices
  (res, if res.any FV.isNan then 1 else 0)

/-- The percentile pipeline at buffer granularity, for claim C10: the
store is a list of buffers; the input array lives in buffer `aId`.
`a.flatten()` and `.reshape(...).copy()` allocate a fresh buffer,
`ap.sort(axis=-1)` mutates that fresh buffer in place, and the result
is a further fresh buffer.  Returns the final store and the result
buffer id. -/
def percentileStore (store : List (List ℚ)) (aId : ℕ) (adt : DType)
    (ashape : List ℕ) (q : QArr) (axis : AxisArg) (interpolation : String)
    (keepdims : Bool) : List (List ℚ) × Except PErr ℕ :=
  let a : NDArray := ⟨adt, ashape, store.getD aId []⟩
  match qPrep adt q with
  | Except.error e => (store, Except.error e)
  | Except.ok (qd, zerod) =>
    match keepdimCalc ashape axis keepdims with
    | Except.error e => (store, Except.error e)
    | Except.ok keepdim =>
      match axisPrep a axis with
      | Except.error e => (store, Except.error e)
      | Except.ok (kept, N, apRaw) =>
        let apId := store.length
        let store1 := store ++ [apRaw]
        let store2 := store1.set apId (sortRows kept.prod N apRaw)
        match dispatchGather adt interpolation (store2.getD apId []) N
            kept.prod kept.length (qd.map (rankOf N)) with
        | Except.error e => (store2, Except.error e)
        | Except.ok (dt, data) =>
          match assemble dt qd.length kept zerod keepdim data with
          | Except.error e => (store2, Except.error e)
          | Except.ok ret => (store2 ++ [ret.data], Except.ok store2.length)

/-! ### Generic list helpers -/

theorem getD_mem_of_lt {α : Type} [Inhabited α] {l : List α} {n : ℕ} (d : α)
    (h : n < l.length) : l.getD n d ∈ l := by
  rw [List.getD_eq_getElem?_getD, List.getElem?_eq_getElem h]
  simp only [Option.getD_some]
  exact List.getElem_mem h

theorem getD_eq_getElem {α : Type} {l : List α} {n : ℕ} (d : α)
    (h : n < l.length) : l.getD n d = l[n] := by
  rw [List.getD_eq_getElem?_getD, List.getElem?_eq_getElem h]
  rfl

theorem getElem?_of_getD {α : Type} {l : List α} {n : ℕ} {d : α}
    (h : n < l.length) : l[n]? = some (l.getD n d) := by
  rw [getD_eq_getElem d h, List.getElem?_eq_getElem h]

/-- Flat access into a concatenation of equal-length chunks. -/
theorem flatten_getElem?_chunks {rows : List (List ℚ)} {L : ℕ}
    (hL : ∀ r ∈ rows, r.length = L) :
    ∀ {t : ℕ} {r : List ℚ}, rows[t]? = some r → ∀ {j : ℕ}, j < L →
      rows.flatten[t * L + j]? = r[j]? := by
  induction rows with
  | nil => intro t r hr; simp at hr
  | cons r0 rs ih =>
    intro t r hr j hj
    cases t with
    | zero =>
      simp only [List.getElem?_cons_zero, Option.some.injEq] at hr
      subst hr
      simp only [Nat.zero_mul, Nat.zero_add, List.flatten_cons]
      rw [List.getElem?_append]
      simp [hL r0 (by simp), hj]
    | succ t' =>
      simp only [List.getElem?_cons_succ] at hr
      have hlen : r0.length = L := hL r0 (by simp)
      have harith : (t' + 1) * L + j = r0.length + (t' * L + j) := by
        rw [hlen]; ring
      rw [List.flatten_cons, harith, List.getElem?_append_right (by omega)]
      have : r0.length + (t' * L + j) - r0.length = t' * L + j := by omega
      rw [this]
      exact ih (fun r hr => hL r (by simp [hr])) hr hj

theorem flatten_length_chunks {rows : List (List ℚ)} {L : ℕ}
    (hL : ∀ r ∈ rows, r.length = L) :
    rows.flatten.length = rows.length * L := by
  induction rows with
  | nil => simp
  | cons r0 rs ih =>
    simp only [List.flatten_cons, List.length_append, List.length_cons]
    rw [hL r0 (by simp), ih (fun r hr => hL r (by simp [hr]))]
    ring

/-! ### `mapE` lemmas -/

theorem mapE_ok_length {α β : Type} {f : α → Except PErr β} :
    ∀ {l : List α} {res : List β}, mapE f l = Except.ok res →
      res.length = l.length := by
  intro l
  induction l with
  | nil => intro res h; simp [mapE] at h; simp [← h]
  | cons x xs ih =>
    intro res h
    simp only [mapE] at h
    cases hx : f x with
    | error e => rw [hx] at h; cases h
    | ok y =>
      rw [hx] at h
      cases hxs : mapE f xs with
      | error e => rw [hxs] at h; cases h
      | ok ys =>
        rw [hxs] at h
        cases h
        simp [ih hxs]

theorem mapE_ok_elem {α β : Type} {f : α → Except PErr β} :
    ∀ {l : List α} {res : List β}, mapE f l = Except.ok res →
      ∀ {i : ℕ} {x : α}, l[i]? = some x →
        ∃ v, f x = Except.ok v ∧ res[i]? = some v := by
  intro l
  induction l with
  | nil => intro res _ i x hx; simp at hx
  | cons a as ih =>
    intro res h i x hx
    simp only [mapE] at h
    cases ha : f a with
    | error e => rw [ha] at h; cases h
    | ok y =>
      rw [ha] at h
      cases has : mapE f as with
      | error e => rw [has] at h; cases h
      | ok ys =>
        rw [has] at h
        cases h
        cases i with
        | zero =>
          simp only [List.getElem?_cons_zero, Option.some.injEq] at hx
          subst hx
          exact ⟨y, ha, by simp⟩
        | succ i' =>
          simp only [List.getElem?_cons_succ] at hx
          obtain ⟨v, hv, hres⟩ := ih has hx
          exact ⟨v, hv, by simpa using hres⟩

theorem mapE_singleton_ok {α β : Type} {f : α → Except PErr β} {x : α}
    {res : List β} (h : mapE f [x] = Except.ok res) :
    ∃ y, f x = Except.ok y ∧ res = [y] := by
  simp only [mapE] at h
  cases hx : f x with
  | error e => rw [hx] at h; cases h
  | ok y => rw [hx] at h; cases h; exact ⟨y, rfl, rfl⟩

theorem exceptMap_ok {α β : Type} {f : α → β} {e : Except PErr α} {y : β}
    (h : Except.map f e = Except.ok y) : ∃ x, e = Except.ok x ∧ f x = y := by
  cases e with
  | error e' => simp [Except.map] at h
  | ok x => refine ⟨x, rfl, ?_⟩; simpa [Except.map] using h

/-! ### `sortRows` lemmas -/

theorem sortRow_length (l : List ℚ) : (sortRow l).length = l.length :=
  List.length_insertionSort _ l

theorem sortRow_sorted (l : List ℚ) : (sortRow l).Sorted (· ≤ ·) :=
  List.sorted_insertionSort _ l

theorem sortRow_mem {l : List ℚ} {x : ℚ} (h : x ∈ sortRow l) : x ∈ l :=
  (List.perm_insertionSort _ l).subset h

theorem rowAt_length {K N : ℕ} {d : List ℚ} (hd : d.length = K * N)
    {t : ℕ} (ht : t < K) : (rowAt N d t).length = N := by
  rw [rowAt, sortRow_length, List.length_take, List.length_drop, hd]
  have h1 : (t + 1) * N ≤ K * N := Nat.mul_le_mul_right N ht
  rw [Nat.succ_mul] at h1
  omega

theorem sortRows_rows (K N : ℕ) (d : List ℚ) :
    sortRows K N d = ((List.range K).map (rowAt N d)).flatten := rfl

theorem sortRows_length {K N : ℕ} {d : List ℚ} (hd : d.length = K * N) :
    (sortRows K N d).length = K * N := by
  rw [sortRows_rows]
  rw [flatten_length_chunks (L := N) ?_]
  · simp
  · intro r hr
    simp only [List.mem_map, List.mem_range] at hr
    obtain ⟨t, ht, rfl⟩ := hr
    exact rowAt_length hd ht

theorem sortRows_getElem? {K N : ℕ} {d : List ℚ} (hd : d.length = K * N)
    {t j : ℕ} (ht : t < K) (hj : j < N) :
    (sortRows K N d)[t * N + j]? = (rowAt N d t)[j]? := by
  rw [sortRows_rows]
  refine flatten_getElem?_chunks ?_ ?_ hj
  · intro r hr
    simp only [List.mem_map, List.mem_range] at hr
    obtain ⟨u, hu, rfl⟩ := hr
    exact rowAt_length hd hu
  · rw [List.getElem?_map]
    simp [List.getElem?_range ht]

theorem rowAt_getD_mem {N : ℕ} {d : List ℚ} {t j : ℕ}
    (hj : j < (rowAt N d t).length) :
    ∃ j' < N, d[t * N + j']? = some ((rowAt N d t).getD j 0) := by
  have hmem : (rowAt N d t).getD j 0 ∈ (d.drop (t * N)).take N :=
    sortRow_mem (getD_mem_of_lt 0 hj)
  obtain ⟨j', hj', hval⟩ := List.mem_iff_getElem.mp hmem
  have hjN : j' < N := by
    have := hj'
    simp only [List.length_take, List.length_drop] at this
    omega
  have key : ((d.drop (t * N)).take N)[j']? = d[t * N + j']? := by
    rw [List.getElem?_take]
    simp only [hjN, if_true]
    exact List.getElem?_drop d (t * N) j'
  exact ⟨j', hjN, by rw [← hval, ← key, List.getElem?_eq_getElem hj']⟩

/-- Elements of a sorted row compare by position. -/
theorem sorted_getD_mono {l : List ℚ} (h : l.Sorted (· ≤ ·)) {i j : ℕ}
    (hij : i ≤ j) (hj : j < l.length) : l.getD i 0 ≤ l.getD j 0 := by
  have hi : i < l.length := lt_of_le_of_lt hij hj
  rw [getD_eq_getElem 0 hi, getD_eq_getElem 0 hj]
  exact h.rel_get_of_le (a := ⟨i, hi⟩) (b := ⟨j, hj⟩) hij

/-! ### Inverting a successful `percentile` run into its stages -/

theorem percentile_ok_elim {a : NDArray} {q : QArr} {axis : AxisArg}
    {interp : String} {kd : Bool} {r : NDArray}
    (h : percentile a q axis interp kd = Except.ok r) :
    ∃ qd zerod keepdim kept N apRaw dtd data,
      qPrep a.dtype q = Except.ok (qd, zerod) ∧
      keepdimCalc a.shape axis kd = Except.ok keepdim ∧
      axisPrep a axis = Except.ok (kept, N, apRaw) ∧
      dispatchGather a.dtype interp (sortRows kept.prod N apRaw) N
        kept.prod kept.length (qd.map (rankOf N)) = Except.ok (dtd, data) ∧
      assemble dtd qd.length kept zerod keepdim data = Except.ok r := by
  unfold percentile at h
  cases h1 : qPrep a.dtype q with
  | error e => rw [h1] at h; cases h
  | ok p1 =>
    rw [h1] at h
    obtain ⟨qd, zerod⟩ := p1
    cases h2 : keepdimCalc a.shape axis kd with
    | error e => rw [h2] at h; cases h
    | ok keepdim =>
      rw [h2] at h
      cases h3 : axisPrep a axis with
      | error e => rw [h3] at h; cases h
      | ok p3 =>
        rw [h3] at h
        obtain ⟨kept, N, apRaw⟩ := p3
        dsimp only at h
        cases h4 : dispatchGather a.dtype interp (sortRows kept.prod N apRaw) N
            kept.prod kept.length (qd.map (rankOf N)) with
        | error e => rw [h4] at h; cases h
        | ok p4 =>
          rw [h4] at h
          obtain ⟨dtd, data⟩ := p4
          exact ⟨qd, zerod, keepdim, kept, N, apRaw, dtd, data,
            rfl, rfl, rfl, h4, h⟩

/-! ### Arithmetic helpers -/

theorem castQ_hundred (dt : DType) : castQ dt 100 = 100 := by
  cases dt <;> norm_num [castQ, ratTrunc]

theorem floor_natCast_sub_one (n : ℕ) : ⌊(n : ℚ) - 1⌋ = (n : ℤ) - 1 := by
  rw [show (1 : ℚ) = ((1 : ℤ) : ℚ) by norm_num, Int.floor_sub_int]
  simp

/-! ### Claim C1: the weighted-blend read at rank `N - 1` -/

theorem blendOne_q100_err {n : ℕ} (d : List ℚ) (hlen : d.length = n)
    (hn : 1 ≤ n) :
    blendOne (sortRows 1 n d) 0 ((n : ℚ) - 1) = Except.error PErr.oobRead := by
  have hlen1 : (sortRows 1 n d).length = n := by
    rw [sortRows_length (by omega : d.length = 1 * n)]
    omega
  unfold blendOne
  rw [floor_natCast_sub_one]
  rw [if_pos (by omega : (0 : ℤ) ≤ (n : ℤ) - 1)]
  have ht : ((n : ℤ) - 1).toNat = n - 1 := by omega
  rw [ht]
  have h2 : (sortRows 1 n d)[0 + (n - 1) + 1]? = none := by
    apply List.getElem?_eq_none
    omega
  rw [h2]
  cases h1 : (sortRows 1 n d)[0 + (n - 1)]? <;> rfl

/-- C1: in the weighted-blend path (`linear`), a quantile whose
continuous rank equals `N - 1` (here `q = 100` on any 1-D array of
length `n ≥ 1`) makes the kernel dereference
`a[offset_i + idx_below + 1] = a[N]`, one element past the end of the
sorted row: the read is neither skipped via the zero weight nor
bounds-clamped, so the call hits an out-of-bounds read, refuting the
claimed guard. -/
theorem claim1_q100_blend_reads_out_of_bounds (dt : DType) (d : List ℚ) (n : ℕ)
    (hlen : d.length = n) (hn : 1 ≤ n) :
    percentile ⟨dt, [n], d⟩ ⟨[], [100]⟩ AxisArg.noneAx "linear" false =
      Except.error PErr.oobRead := by
  have hrank : rankOf n 100 = (n : ℚ) - 1 := by unfold rankOf; ring
  have hbi : blendIdx (sortRows 1 n d) n 1 0 ((n : ℚ) - 1) =
      Except.error PErr.oobRead := by
    unfold blendIdx
    rw [if_neg (by decide)]
    have hr1 : List.range 1 = [0] := rfl
    simp only [hr1, mapE, Nat.zero_mul]
    rw [blendOne_q100_err d hlen hn]
  have hdis : dispatchGather dt "linear" (sortRows 1 n d) n 1 0
      [rankOf n 100] = Except.error PErr.oobRead := by
    unfold dispatchGather
    rw [if_neg (by decide), if_neg (by decide), if_neg (by decide),
      if_neg (by decide), if_pos rfl]
    simp only [mapE, hrank, hbi]
    rfl
  unfold percentile
  have hq : qPrep dt ⟨[], [100]⟩ = Except.ok ([100], true) := by
    simp [qPrep, castQ_hundred]
  rw [hq]
  simp only [keepdimCalc, Bool.false_eq_true, if_false]
  simp only [axisPrep]
  have hprod : List.prod [n] = n := by simp
  rw [hprod]
  simp only [List.prod_nil, List.length_nil, List.map_cons, List.map_nil]
  rw [hdis]

theorem claim1_q100_blend_reads_out_of_bounds_witness :
    percentile ⟨DType.float64, [3], [1, 2, 3]⟩ ⟨[], [100]⟩ AxisArg.noneAx
      "linear" false = Except.error PErr.oobRead :=
  claim1_q100_blend_reads_out_of_bounds DType.float64 [1, 2, 3] 3 rfl
    (by norm_num)

/-- C2: `percentile` with `keepdims=true` and a single integer axis does
NOT succeed: the `keepdims` block iterates `for ax in axis` before the
`int → tuple` conversion of lines 164-165, so it raises `TypeError`
(`'int' object is not iterable`).  The same call with the equivalent
1-tuple axis succeeds and keeps every reduced axis as size 1. -/
theorem claim2_keepdims_int_axis_raises :
    percentile ⟨DType.float64, [2, 3], [1, 2, 3, 4, 5, 6]⟩ ⟨[], [50]⟩
        (AxisArg.intAx 1) "linear" true = Except.error PErr.typeError ∧
    percentile ⟨DType.float64, [2, 3], [1, 2, 3, 4, 5, 6]⟩ ⟨[], [50]⟩
        (AxisArg.tupAx [1]) "linear" true =
      Except.ok ⟨DType.float64, [2, 1], [2, 5]⟩ := by
  constructor <;> decide

/-- C3: `percentile(a, 0, axis)` agrees with `amin` where it completes
(shown on `a = [4, 7]`), but `percentile(a, 100, axis)` does not equal
`amax(a, axis)`: at `q = 100` the linear blend path reads one element
past the end of the sorted buffer (undefined behaviour) instead of
returning the maximum `7`. -/
theorem claim3_q100_diverges_from_amax :
    percentile ⟨DType.float64, [2], [4, 7]⟩ ⟨[], [100]⟩ AxisArg.noneAx
        "linear" false = Except.error PErr.oobRead ∧
    amax ⟨DType.float64, [2], [4, 7]⟩ AxisArg.noneAx = [7] ∧
    percentile ⟨DType.float64, [2], [4, 7]⟩ ⟨[], [0]⟩ AxisArg.noneAx
        "linear" false = Except.ok ⟨DType.float64, [], [4]⟩ ∧
    amin ⟨DType.float64, [2], [4, 7]⟩ AxisArg.noneAx = [4] := by
  refine ⟨by decide, by decide, by decide, by decide⟩

/-- C6 counterexample: `axis=(5,)` on a 2-D array does NOT fail with an
invalid-argument error: `ax % a.ndim` wraps `5` to `1` and the call
silently reduces axis 1, returning the row medians. -/
theorem claim6_oob_axis_succeeds_counterexample :
    percentile ⟨DType.float64, [2, 2], [1, 2, 3, 4]⟩ ⟨[], [50]⟩
        (AxisArg.tupAx [5]) "linear" false =
      Except.ok ⟨DType.float64, [2], [3 / 2, 7 / 2]⟩ := by decide

theorem ratTrunc_intCast (z : ℤ) : ratTrunc ((z : ℤ) : ℚ) = z := by
  unfold ratTrunc
  split <;> simp

theorem ratTrunc_idem (x : ℚ) : ratTrunc (ratTrunc x) = ratTrunc x := by
  rw [show ratTrunc x = (if 0 ≤ x then ((⌊x⌋ : ℤ) : ℚ) else ((⌈x⌉ : ℤ) : ℚ)) from rfl]
  split <;> exact ratTrunc_intCast _

/-- C6 amended: every axis index is normalized by the Python modulo
`ax % ndim`, so a call whose axis tuple contains indices of any
magnitude behaves exactly like the call with each index pre-reduced
modulo `ndim`: out-of-range indices are silently wrapped, never
rejected. -/
theorem claim6_axis_modulo_equiv (a : NDArray) (q : QArr) (l : List ℤ)
    (interp : String) (kd : Bool) :
    percentile a q (AxisArg.tupAx l) interp kd =
      percentile a q
        (AxisArg.tupAx (l.map (fun ax => ax.emod (a.shape.length : ℤ))))
        interp kd := by
  have hemod : ∀ ax : ℤ,
      (ax.emod (a.shape.length : ℤ)).emod (a.shape.length : ℤ) =
        ax.emod (a.shape.length : ℤ) := fun ax =>
    Int.emod_emod_of_dvd ax dvd_rfl
  have hne : (l.map (fun ax => ax.emod (a.shape.length : ℤ)) ≠ []) ↔ l ≠ [] := by
    simp
  have hkd : keepdimCalc a.shape
      (AxisArg.tupAx (l.map (fun ax => ax.emod (a.shape.length : ℤ)))) kd =
      keepdimCalc a.shape (AxisArg.tupAx l) kd := by
    unfold keepdimCalc
    cases kd with
    | false => rfl
    | true =>
      simp only [if_true]
      rw [List.foldl_map]
      by_cases h0 : a.shape.length = 0 ∧ l ≠ []
      · rw [if_pos h0, if_pos (by exact ⟨h0.1, hne.mpr h0.2⟩)]
      · rw [if_neg h0, if_neg (by
          intro hc
          exact h0 ⟨hc.1, hne.mp hc.2⟩)]
        simp only [Except.ok.injEq, Option.some.injEq]
        congr 1
        funext kd' ax
        rw [hemod]
  have hax : axisPrepTup a (l.map (fun ax => ax.emod (a.shape.length : ℤ))) =
      axisPrepTup a l := by
    unfold axisPrepTup
    by_cases h0 : a.shape.length = 0 ∧ l ≠ []
    · rw [if_pos h0, if_pos (by exact ⟨h0.1, hne.mpr h0.2⟩)]
    · rw [if_neg h0, if_neg (by
        intro hc
        exact h0 ⟨hc.1, hne.mp hc.2⟩)]
      have : normAxes a.shape.length
          (l.map (fun ax => ax.emod (a.shape.length : ℤ))) =
          normAxes a.shape.length l := by
        unfold normAxes
        rw [List.map_map]
        congr 1
        funext ax
        simp only [Function.comp_apply]
        rw [hemod]
      rw [this]
  unfold percentile
  simp only [axisPrep, hkd, hax]

theorem claim6_axis_modulo_equiv_witness :
    percentile ⟨DType.float64, [2, 2], [1, 2, 3, 4]⟩ ⟨[], [50]⟩
        (AxisArg.tupAx [5]) "linear" false =
      percentile ⟨DType.float64, [2, 2], [1, 2, 3, 4]⟩ ⟨[], [50]⟩
        (AxisArg.tupAx ([(5 : ℤ)].map (fun ax => ax.emod ((2 : ℕ) : ℤ))))
        "linear" false :=
  claim6_axis_modulo_equiv ⟨DType.float64, [2, 2], [1, 2, 3, 4]⟩
    ⟨[], [50]⟩ [5] "linear" false

/-- C7: `percentile` converts `q` to `a.dtype` before computing ranks
(line 144), so for an integer-dtype input array the call behaves
exactly as if every quantile had first been truncated toward zero to an
integer: fractional quantiles are silently truncated, not used as given
and not rejected. -/
theorem claim7_q_cast_truncates (a : NDArray) (q : QArr) (axis : AxisArg)
    (interp : String) (kd : Bool) (hdt : a.dtype = DType.int32) :
    percentile a q axis interp kd =
      percentile a ⟨q.shape, q.data.map ratTrunc⟩ axis interp kd := by
  have hq : qPrep a.dtype ⟨q.shape, q.data.map ratTrunc⟩ = qPrep a.dtype q := by
    unfold qPrep
    simp only [hdt, List.map_map]
    have hfun : castQ DType.int32 ∘ ratTrunc = castQ DType.int32 := by
      funext x
      simp only [Function.comp_apply, castQ]
      exact ratTrunc_idem x
    rw [hfun]
  have hlen : (⟨q.shape, q.data.map ratTrunc⟩ : QArr).shape = q.shape := rfl
  unfold percentile
  rw [hq]

theorem claim7_q_cast_truncates_witness :
    percentile ⟨DType.int32, [3], [1, 2, 3]⟩ ⟨[], [101 / 2]⟩ AxisArg.noneAx
        "lower" false =
      percentile ⟨DType.int32, [3], [1, 2, 3]⟩
        ⟨[], [(101 / 2 : ℚ)].map ratTrunc⟩ AxisArg.noneAx "lower" false :=
  claim7_q_cast_truncates ⟨DType.int32, [3], [1, 2, 3]⟩ ⟨[], [101 / 2]⟩
    AxisArg.noneAx "lower" false rfl

/-- C8: once the quantile, keepdims and axis preparation stages have
passed (they run first, lines 144-179), interpolation dispatch rejects
`nearest` with its dedicated unsupported-policy error and rejects every
string outside the five named policies with the invalid-interpolation
error; no fallback policy is ever applied. -/
theorem claim8_interpolation_rejections (a : NDArray) (q : QArr)
    (axis : AxisArg) (kd : Bool) (p1 : List ℚ × Bool)
    (kdim : Option (List ℕ)) (p3 : List ℕ × ℕ × List ℚ)
    (h1 : qPrep a.dtype q = Except.ok p1)
    (h2 : keepdimCalc a.shape axis kd = Except.ok kdim)
    (h3 : axisPrep a axis = Except.ok p3) :
    percentile a q axis "nearest" kd =
      Except.error PErr.unsupportedInterpolation ∧
    ∀ s : String, s ≠ "linear" → s ≠ "lower" → s ≠ "higher" →
      s ≠ "midpoint" → s ≠ "nearest" →
      percentile a q axis s kd = Except.error PErr.invalidInterpolation := by
  obtain ⟨qd, zerod⟩ := p1
  obtain ⟨kept, N, apRaw⟩ := p3
  constructor
  · unfold percentile
    rw [h1, h2, h3]
    dsimp only
    have hd : dispatchGather a.dtype "nearest" (sortRows kept.prod N apRaw) N
        kept.prod kept.length (qd.map (rankOf N)) =
        Except.error PErr.unsupportedInterpolation := by
      unfold dispatchGather
      rw [if_neg (by decide), if_neg (by decide), if_neg (by decide),
        if_pos rfl]
    rw [hd]
  · intro s hs1 hs2 hs3 hs4 hs5
    unfold percentile
    rw [h1, h2, h3]
    dsimp only
    have hd : dispatchGather a.dtype s (sortRows kept.prod N apRaw) N
        kept.prod kept.length (qd.map (rankOf N)) =
        Except.error PErr.invalidInterpolation := by
      unfold dispatchGather
      rw [if_neg hs2, if_neg hs3, if_neg hs4, if_neg hs5, if_neg hs1]
    rw [hd]

theorem claim8_interpolation_rejections_witness :
    percentile ⟨DType.float64, [2], [1, 2]⟩ ⟨[], [50]⟩ AxisArg.noneAx
        "nearest" false = Except.error PErr.unsupportedInterpolation ∧
    percentile ⟨DType.float64, [2], [1, 2]⟩ ⟨[], [50]⟩ AxisArg.noneAx
        "bogus" false = Except.error PErr.invalidInterpolation := by
  have h := claim8_interpolation_rejections ⟨DType.float64, [2], [1, 2]⟩
    ⟨[], [50]⟩ AxisArg.noneAx false ([50], true) Option.none ([], 2, [1, 2])
    (by decide) (by decide) (by decide)
  exact ⟨h.1, h.2 "bogus" (by decide) (by decide) (by decide) (by decide)
    (by decide)⟩

/-- C9: for `nanmin`/`nanmax`, when at least one reduction slice is
entirely NaN the call still returns NaN at each such slice and emits
exactly one all-NaN-slice notice for the whole call (regardless of how
many slices are all-NaN); when every slice has a non-NaN value, no
notice is emitted. -/
theorem claim9_all_nan_slice_notice (slices : List (List FV)) :
    ((∃ s ∈ slices, ∀ v ∈ s, v = FV.nan) →
      (nanmin slices).2 = 1 ∧ (nanmax slices).2 = 1 ∧
      ∀ i, i < slices.length → (∀ v ∈ slices.getD i [], v = FV.nan) →
        (nanmin slices).1.getD i (FV.val 0) = FV.nan ∧
        (nanmax slices).1.getD i (FV.val 0) = FV.nan) ∧
    ((∀ s ∈ slices, ∃ v ∈ s, v ≠ FV.nan) →
      (nanmin slices).2 = 0 ∧ (nanmax slices).2 = 0) := by
  have hnil : ∀ s : List FV, (∀ v ∈ s, v = FV.nan) → nonNanVals s = [] := by
    intro s hs
    unfold nonNanVals
    rw [List.filterMap_eq_nil_iff]
    intro v hv
    rw [hs v hv]
  have hmin_nan : ∀ s : List FV, (∀ v ∈ s, v = FV.nan) →
      (match listMin (nonNanVals s) with
       | Option.none => FV.nan
       | some m => FV.val m) = FV.nan := by
    intro s hs
    rw [hnil s hs]
    rfl
  have hmax_nan : ∀ s : List FV, (∀ v ∈ s, v = FV.nan) →
      (match listMax (nonNanVals s) with
       | Option.none => FV.nan
       | some m => FV.val m) = FV.nan := by
    intro s hs
    rw [hnil s hs]
    rfl
  have hnonnil : ∀ s : List FV, (∃ v ∈ s, v ≠ FV.nan) →
      ∃ x l, nonNanVals s = x :: l := by
    intro s hs
    obtain ⟨v, hv, hvne⟩ := hs
    cases v with
    | nan => exact absurd rfl hvne
    | val x =>
      have hx : x ∈ nonNanVals s := by
        unfold nonNanVals
        exact List.mem_filterMap.mpr ⟨FV.val x, hv, rfl⟩
      cases hnn : nonNanVals s with
      | nil => rw [hnn] at hx; cases hx
      | cons y l => exact ⟨y, l, rfl⟩
  constructor
  · rintro ⟨s, hsmem, hsnan⟩
    have hminmem : FV.nan ∈ coreNanmin slices := by
      unfold coreNanmin
      exact List.mem_map.mpr ⟨s, hsmem, hmin_nan s hsnan⟩
    have hmaxmem : FV.nan ∈ coreNanmax slices := by
      unfold coreNanmax
      exact List.mem_map.mpr ⟨s, hsmem, hmax_nan s hsnan⟩
    refine ⟨?_, ?_, ?_⟩
    · unfold nanmin
      dsimp only
      rw [if_pos (List.any_eq_true.mpr ⟨FV.nan, hminmem, rfl⟩)]
    · unfold nanmax
      dsimp only
      rw [if_pos (List.any_eq_true.mpr ⟨FV.nan, hmaxmem, rfl⟩)]
    · intro i hi hinan
      have hi' : i < (coreNanmin slices).length := by
        unfold coreNanmin
        rw [List.length_map]
        exact hi
      have hi'' : i < (coreNanmax slices).length := by
        unfold coreNanmax
        rw [List.length_map]
        exact hi
      have hieq : slices.getD i [] = slices[i] := getD_eq_getElem [] hi
      constructor
      · show (coreNanmin slices).getD i (FV.val 0) = FV.nan
        unfold coreNanmin
        rw [List.getD_eq_getElem?_getD, List.getElem?_map,
          List.getElem?_eq_getElem hi]
        show (match listMin (nonNanVals slices[i]) with
              | Option.none => FV.nan
              | some m => FV.val m) = FV.nan
        exact hmin_nan _ (hieq ▸ hinan)
      · show (coreNanmax slices).getD i (FV.val 0) = FV.nan
        unfold coreNanmax
        rw [List.getD_eq_getElem?_getD, List.getElem?_map,
          List.getElem?_eq_getElem hi]
        show (match listMax (nonNanVals slices[i]) with
              | Option.none => FV.nan
              | some m => FV.val m) = FV.nan
        exact hmax_nan _ (hieq ▸ hinan)
  · intro hall
    have hfmin : (coreNanmin slices).any FV.isNan = false := by
      rw [List.any_eq_false]
      intro v hv
      unfold coreNanmin at hv
      obtain ⟨s, hsmem, rfl⟩ := List.mem_map.mp hv
      obtain ⟨x, l, hxl⟩ := hnonnil s (hall s hsmem)
      rw [hxl]
      simp [listMin, FV.isNan]
    have hfmax : (coreNanmax slices).any FV.isNan = false := by
      rw [List.any_eq_false]
      intro v hv
      unfold coreNanmax at hv
      obtain ⟨s, hsmem, rfl⟩ := List.mem_map.mp hv
      obtain ⟨x, l, hxl⟩ := hnonnil s (hall s hsmem)
      rw [hxl]
      simp [listMax, FV.isNan]
    constructor
    · show (if (coreNanmin slices).any FV.isNan = true then (1 : ℕ) else 0) = 0
      rw [hfmin]
      rfl
    · show (if (coreNanmax slices).any FV.isNan = true then (1 : ℕ) else 0) = 0
      rw [hfmax]
      rfl

theorem claim9_all_nan_slice_notice_witness :
    (nanmin [[FV.nan], [FV.val 1, FV.nan]]).2 = 1 ∧
    (nanmax [[FV.nan], [FV.val 1, FV.nan]]).2 = 1 ∧
    (nanmin [[FV.nan], [FV.val 1, FV.nan]]).1.getD 0 (FV.val 0) = FV.nan := by
  have h := (claim9_all_nan_slice_notice [[FV.nan], [FV.val 1, FV.nan]]).1
    ⟨[FV.nan], by simp, by simp⟩
  exact ⟨h.1, h.2.1, (h.2.2 0 (by decide) (by decide)).1⟩

/-- C10: the percentile pipeline never mutates any pre-existing buffer:
the sort happens in place on a freshly allocated working copy
(`a.flatten()` or `.reshape(...).copy()`), so after the call every
buffer that existed before it — in particular the caller's input
array — holds exactly its old contents. -/
theorem claim10_preexisting_buffers_unchanged (store : List (List ℚ))
    (aId : ℕ) (adt : DType) (ashape : List ℕ) (q : QArr) (axis : AxisArg)
    (interp : String) (kd : Bool) :
    ((percentileStore store aId adt ashape q axis interp kd).1).take
      store.length = store := by
  have hset : ∀ (x y : List ℚ),
      (store ++ [x]).set store.length y = store ++ [y] := by
    intro x y
    rw [List.set_append_right _ _ (Nat.le_refl _)]
    simp
  unfold percentileStore
  cases h1 : qPrep adt q with
  | error e => exact List.take_length store
  | ok p1 =>
    obtain ⟨qd, zerod⟩ := p1
    dsimp only
    cases h2 : keepdimCalc ashape axis kd with
    | error e => exact List.take_length store
    | ok keepdim =>
      dsimp only
      cases h3 : axisPrep ⟨adt, ashape, store.getD aId []⟩ axis with
      | error e => exact List.take_length store
      | ok p3 =>
        obtain ⟨kept, N, apRaw⟩ := p3
        dsimp only
        rw [hset]
        cases h4 : dispatchGather adt interp
            ((store ++ [sortRows kept.prod N apRaw]).getD store.length []) N
            kept.prod kept.length (qd.map (rankOf N)) with
        | error e => exact List.take_left store _
        | ok p4 =>
          obtain ⟨dt, data⟩ := p4
          dsimp only
          cases h5 : assemble dt qd.length kept zerod keepdim data with
          | error e => exact List.take_left store _
          | ok ret =>
            dsimp only
            rw [List.append_assoc]
            exact List.take_left store _

/-! ### Monotonicity helpers (claim C4) -/

theorem ratTrunc_mono {x y : ℚ} (h : x ≤ y) : ratTrunc x ≤ ratTrunc y := by
  unfold ratTrunc
  split <;> split
  · exact_mod_cast Int.floor_le_floor h
  · rename_i hx hy
    exact absurd (le_trans hx h) hy
  · rename_i hx hy
    have h1 : (⌈x⌉ : ℚ) ≤ 0 := by
      have : ⌈x⌉ ≤ (0 : ℤ) := Int.ceil_le.mpr (by exact_mod_cast le_of_not_le hx)
      exact_mod_cast this
    have h2 : (0 : ℚ) ≤ (⌊y⌋ : ℚ) := by
      exact_mod_cast Int.floor_nonneg.mpr hy
    linarith
  · exact_mod_cast Int.ceil_le_ceil h

theorem castQ_mono (dt : DType) {x y : ℚ} (h : x ≤ y) :
    castQ dt x ≤ castQ dt y := by
  cases dt with
  | int32 => exact ratTrunc_mono h
  | float64 => exact h

theorem rankOf_mono {N : ℕ} (hN : 1 ≤ N) {x y : ℚ} (h : x ≤ y) :
    rankOf N x ≤ rankOf N y := by
  unfold rankOf
  have hN' : (0 : ℚ) ≤ (N : ℚ) - 1 := by
    have : (1 : ℚ) ≤ (N : ℚ) := by exact_mod_cast hN
    linarith
  have h1 : x * (1 / 100) ≤ y * (1 / 100) := by linarith
  exact mul_le_mul_of_nonneg_right h1 hN'

theorem midRank_mono {x y : ℚ} (h : x ≤ y) :
    ((⌊x⌋ + ⌈x⌉ : ℤ) : ℚ) / 2 ≤ ((⌊y⌋ + ⌈y⌉ : ℤ) : ℚ) / 2 := by
  have h1 : ⌊x⌋ ≤ ⌊y⌋ := Int.floor_le_floor h
  have h2 : ⌈x⌉ ≤ ⌈y⌉ := Int.ceil_le_ceil h
  have h3 : ((⌊x⌋ + ⌈x⌉ : ℤ) : ℚ) ≤ ((⌊y⌋ + ⌈y⌉ : ℤ) : ℚ) := by
    exact_mod_cast add_le_add h1 h2
  linarith

theorem blendOne_ok_elim {s : List ℚ} {off : ℕ} {x v : ℚ}
    (h : blendOne s off x = Except.ok v) :
    0 ≤ ⌊x⌋ ∧ ∃ v1 v2, s[off + ⌊x⌋.toNat]? = some v1 ∧
      s[off + ⌊x⌋.toNat + 1]? = some v2 ∧
      v = v1 * (1 - (x - (⌊x⌋ : ℚ))) + v2 * (x - (⌊x⌋ : ℚ)) := by
  replace h : (if 0 ≤ ⌊x⌋ then
      match s[off + ⌊x⌋.toNat]?, s[off + ⌊x⌋.toNat + 1]? with
      | some v1, some v2 =>
        Except.ok (v1 * (1 - (x - (⌊x⌋ : ℚ))) + v2 * (x - (⌊x⌋ : ℚ)))
      | _, _ => Except.error PErr.oobRead
    else Except.error PErr.oobRead) = Except.ok v := h
  split at h
  · rename_i hb
    refine ⟨hb, ?_⟩
    cases hr1 : s[off + ⌊x⌋.toNat]? with
    | none => rw [hr1] at h; cases hr2 : s[off + ⌊x⌋.toNat + 1]? <;>
        rw [hr2] at h <;> cases h
    | some v1 =>
      rw [hr1] at h
      cases hr2 : s[off + ⌊x⌋.toNat + 1]? with
      | none => rw [hr2] at h; cases h
      | some v2 =>
        rw [hr2] at h
        cases h
        exact ⟨v1, v2, rfl, rfl, rfl⟩
  · cases h

theorem gatherIdx_ok_elim {s : List ℚ} {N K : ℕ} {i : ℤ} {res : List ℚ}
    (h : gatherIdx s N K i = Except.ok res) :
    res.length = K ∧ ∀ t, t < K → (0 ≤ i ∧ i < (N : ℤ)) ∧
      s[t * N + i.toNat]? = some (res.getD t 0) := by
  unfold gatherIdx at h
  refine ⟨by rw [mapE_ok_length h, List.length_range], ?_⟩
  intro t ht
  obtain ⟨v, hv, hres⟩ := mapE_ok_elem h
    (by rw [List.getElem?_range ht] : (List.range K)[t]? = some t)
  have hres' : res.getD t 0 = v := by
    rw [List.getD_eq_getElem?_getD, hres]
    rfl
  split at hv
  · rename_i hcond
    refine ⟨hcond, ?_⟩
    cases hr : s[t * N + i.toNat]? with
    | none => rw [hr] at hv; cases hv
    | some w =>
      rw [hr] at hv
      cases hv
      rw [hres']
  · cases hv

theorem blendIdx_ok_elim {s : List ℚ} {N K nkeep : ℕ} {x : ℚ}
    {res : List ℚ} (hK : nkeep = 0 → K = 1)
    (h : blendIdx s N K nkeep x = Except.ok res) :
    res.length = K ∧ ∀ t, t < K →
      blendOne s (t * N) x = Except.ok (res.getD t 0) := by
  unfold blendIdx at h
  refine ⟨by rw [mapE_ok_length h, List.length_range], ?_⟩
  intro t ht
  obtain ⟨v, hv, hres⟩ := mapE_ok_elem h
    (by rw [List.getElem?_range ht] : (List.range K)[t]? = some t)
  have hres' : res.getD t 0 = v := by
    rw [List.getD_eq_getElem?_getD, hres]
    rfl
  rw [hres']
  cases Nat.eq_zero_or_pos nkeep with
  | inl h0 =>
    have hK1 : K = 1 := hK h0
    have ht0 : t = 0 := by omega
    subst ht0
    have hoff : (0 * if nkeep + 1 > 1 then N else 0) = 0 * N := by
      simp
    rw [hoff] at hv
    exact hv
  | inr hpos =>
    have hoff : (if nkeep + 1 > 1 then N else 0) = N := by
      rw [if_pos (by omega)]
    rw [hoff] at hv
    exact hv

theorem rowAt_sorted (N : ℕ) (d : List ℚ) (t : ℕ) :
    (rowAt N d t).Sorted (· ≤ ·) := sortRow_sorted _

/-- Flat reads of the sorted buffer inside row `t` are reads of the
sorted row. -/
theorem sortRows_read_row {K N : ℕ} {d : List ℚ} (hd : d.length = K * N)
    {t j : ℕ} (ht : t < K) (hj : j < N) {v : ℚ}
    (h : (sortRows K N d)[t * N + j]? = some v) :
    (rowAt N d t).getD j 0 = v := by
  rw [sortRows_getElem? hd ht hj] at h
  rw [List.getD_eq_getElem?_getD, h]
  rfl

/-- The blend value is monotone in the rank, within one sorted row. -/
theorem blendOne_mono_in_row {K N : ℕ} {d : List ℚ}
    (hd : d.length = K * N) {t : ℕ} (ht : t < K) {x1 x2 v1 v2 : ℚ}
    (hx : x1 ≤ x2) (hb2 : ⌊x2⌋.toNat + 1 < N)
    (h1 : blendOne (sortRows K N d) (t * N) x1 = Except.ok v1)
    (h2 : blendOne (sortRows K N d) (t * N) x2 = Except.ok v2) :
    v1 ≤ v2 := by
  obtain ⟨hf1, w1, w1', hr1, hr1', hv1⟩ := blendOne_ok_elim h1
  obtain ⟨hf2, w2, w2', hr2, hr2', hv2⟩ := blendOne_ok_elim h2
  have hfle : ⌊x1⌋ ≤ ⌊x2⌋ := Int.floor_le_floor hx
  have hb1 : ⌊x1⌋.toNat + 1 < N := by omega
  have hrow : (rowAt N d t).length = N := rowAt_length hd ht
  have hltN : ∀ j, j < N → j < (rowAt N d t).length := by
    intro j hj
    rw [hrow]
    exact hj
  have e1 : (rowAt N d t).getD ⌊x1⌋.toNat 0 = w1 :=
    sortRows_read_row hd ht (by omega) hr1
  have e1' : (rowAt N d t).getD (⌊x1⌋.toNat + 1) 0 = w1' := by
    have := sortRows_read_row hd ht (j := ⌊x1⌋.toNat + 1) (by omega)
      (by rw [← Nat.add_assoc]; exact hr1')
    exact this
  have e2 : (rowAt N d t).getD ⌊x2⌋.toNat 0 = w2 :=
    sortRows_read_row hd ht (by omega) hr2
  have e2' : (rowAt N d t).getD (⌊x2⌋.toNat + 1) 0 = w2' := by
    have := sortRows_read_row hd ht (j := ⌊x2⌋.toNat + 1) (by omega)
      (by rw [← Nat.add_assoc]; exact hr2')
    exact this
  have hsorted := rowAt_sorted N d t
  have hw1 : w1 ≤ w1' := by
    rw [← e1, ← e1']
    exact sorted_getD_mono hsorted (by omega) (hltN _ (by omega))
  have hw2 : w2 ≤ w2' := by
    rw [← e2, ← e2']
    exact sorted_getD_mono hsorted (by omega) (hltN _ (by omega))
  have hfrac1a : (⌊x1⌋ : ℚ) ≤ x1 := Int.floor_le x1
  have hfrac1b : x1 < (⌊x1⌋ : ℚ) + 1 := Int.lt_floor_add_one x1
  have hfrac2a : (⌊x2⌋ : ℚ) ≤ x2 := Int.floor_le x2
  have hfrac2b : x2 < (⌊x2⌋ : ℚ) + 1 := Int.lt_floor_add_one x2
  rcases eq_or_lt_of_le hfle with heq | hlt
  · -- same bracket: linear interpolation with a common pair
    have heqN : ⌊x1⌋.toNat = ⌊x2⌋.toNat := by rw [heq]
    have hw : w1 = w2 := by rw [← e1, ← e2, heqN]
    have hw' : w1' = w2' := by rw [← e1', ← e2', heqN]
    subst hv1 hv2 hw hw'
    rw [← heq]
    nlinarith [mul_nonneg (sub_nonneg.mpr hx) (sub_nonneg.mpr hw1)]
  · -- strictly larger bracket: v1 ≤ row[b1+1] ≤ row[b2] ≤ v2
    have hmid : (rowAt N d t).getD (⌊x1⌋.toNat + 1) 0 ≤
        (rowAt N d t).getD ⌊x2⌋.toNat 0 :=
      sorted_getD_mono hsorted (by omega) (hltN _ (by omega))
    have hstep1 : v1 ≤ w1' := by
      subst hv1
      nlinarith [mul_nonneg (sub_nonneg.mpr hw1)
        (sub_nonneg.mpr hfrac1a)]
    have hstep2 : w2 ≤ v2 := by
      subst hv2
      nlinarith [mul_nonneg (sub_nonneg.mpr hw2)
        (sub_nonneg.mpr hfrac2a)]
    have hstep3 : w1' ≤ w2 := by
      rw [← e1', ← e2]
      exact hmid
    linarith

/-- The gathered value is monotone in the integer index, within one
sorted row. -/
theorem gather_mono_in_row {K N : ℕ} {d : List ℚ} (hd : d.length = K * N)
    {t : ℕ} (ht : t < K) {i1 i2 : ℤ} (hle : i1 ≤ i2) (h01 : 0 ≤ i1)
    (h2N : i2 < (N : ℤ)) {v1 v2 : ℚ}
    (h1 : (sortRows K N d)[t * N + i1.toNat]? = some v1)
    (h2 : (sortRows K N d)[t * N + i2.toNat]? = some v2) : v1 ≤ v2 := by
  have hj1 : i1.toNat < N := by omega
  have hj2 : i2.toNat < N := by omega
  have e1 := sortRows_read_row hd ht hj1 h1
  have e2 := sortRows_read_row hd ht hj2 h2
  rw [← e1, ← e2]
  exact sorted_getD_mono (rowAt_sorted N d t) (by omega)
    (by rw [rowAt_length hd ht]; exact hj2)

/-- A successful `axisPrep` yields a working buffer of exactly
`kept.prod * N` elements (for the flatten branch this needs the input
to be well-formed). -/
theorem axisPrep_len {a : NDArray} {axis : AxisArg} {kept : List ℕ}
    {N : ℕ} {apRaw : List ℚ} (hwf : a.data.length = a.shape.prod)
    (h : axisPrep a axis = Except.ok (kept, N, apRaw)) :
    apRaw.length = kept.prod * N := by
  have htup : ∀ l, axisPrepTup a l = Except.ok (kept, N, apRaw) →
      apRaw.length = kept.prod * N := by
    intro l hl
    unfold axisPrepTup at hl
    split at hl
    · cases hl
    · rename_i hcond
      injection hl with hl1
      injection hl1 with hk hl2
      injection hl2 with hN hap
      subst hk hN hap
      unfold View.materialize
      rw [List.length_map, List.length_range]
      rw [← List.prod_take_mul_prod_drop _ (keptAxes a.shape.length
        (normAxes a.shape.length l)).length]
  cases axis with
  | noneAx =>
    unfold axisPrep at h
    injection h with h1
    injection h1 with hk h2
    injection h2 with hN hap
    subst hk hN hap
    rw [hwf, List.prod_nil, Nat.one_mul]
  | intAx i => exact htup [i] h
  | tupAx l => exact htup l h

/-- `assemble` never changes the data buffer. -/
theorem assemble_ok_data {dt : DType} {k : ℕ} {kept : List ℕ} {z : Bool}
    {kdim : Option (List ℕ)} {data : List ℚ} {r : NDArray}
    (h : assemble dt k kept z kdim data = Except.ok r) : r.data = data := by
  unfold assemble at h
  split at h
  · cases h
  · rename_i shp hshp
    split at h
    · cases h
      rfl
    · split at h
      · split at h
        · cases h
        · cases h
          rfl
      · split at h
        · cases h
          rfl
        · cases h

/-- Two successful `assemble` runs with the same bookkeeping arguments
and equal-length data have equal shapes. -/
theorem assemble_ok_shape_congr {dt dt' : DType} {k : ℕ} {kept : List ℕ}
    {z : Bool} {kdim : Option (List ℕ)} {d1 d2 : List ℚ} {r1 r2 : NDArray}
    (h1 : assemble dt k kept z kdim d1 = Except.ok r1)
    (h2 : assemble dt' k kept z kdim d2 = Except.ok r2)
    (hlen : d1.length = d2.length) : r1.shape = r2.shape := by
  unfold assemble at h1 h2
  cases hs : (if z then
      (if k = 1 then Except.ok kept else Except.error PErr.valueError)
    else Except.ok (k :: kept) : Except PErr (List ℕ)) with
  | error e =>
    rw [hs] at h1
    cases h1
  | ok shp =>
    rw [hs] at h1 h2
    dsimp only at h1 h2
    cases kdim with
    | none =>
      cases h1
      cases h2
      rfl
    | some kd =>
      dsimp only at h1 h2
      by_cases hk : k > 1
      · rw [if_pos hk] at h1 h2
        by_cases hc : kd.prod = 0 ∨ ¬ kd.prod ∣ d1.length
        · rw [if_pos hc] at h1
          cases h1
        · rw [if_neg hc] at h1
          rw [if_neg (by rw [← hlen]; exact hc)] at h2
          cases h1
          cases h2
          simp [hlen]
      · rw [if_neg hk] at h1 h2
        by_cases hc : d1.length = kd.prod
        · rw [if_pos hc] at h1
          rw [if_pos (by rw [← hlen]; exact hc)] at h2
          cases h1
          cases h2
          rfl
        · rw [if_neg hc] at h1
          cases h1

theorem mapE_single_flatten_ok {f : ℚ → Except PErr (List ℚ)} {r : ℚ}
    {dt0 dtd : DType} {data : List ℚ}
    (h : (mapE f [r]).map (fun rows => (dt0, rows.flatten)) =
      Except.ok (dtd, data)) :
    dtd = dt0 ∧ ∃ inner, f r = Except.ok inner ∧ data = inner := by
  obtain ⟨rows, hrows, heq⟩ := exceptMap_ok h
  obtain ⟨inner, hinner, hrows_eq⟩ := mapE_singleton_ok hrows
  subst hrows_eq
  injection heq with he1 he2
  refine ⟨he1.symm, inner, hinner, ?_⟩
  rw [← he2]
  simp

/-- The `take` path is elementwise monotone in the gather index. -/
theorem take_path_mono {K N : ℕ} {d : List ℚ} (hd : d.length = K * N)
    {i1 i2 : ℤ} (hle : 1 ≤ N → i1 ≤ i2) {res1 res2 : List ℚ}
    (h1 : gatherIdx (sortRows K N d) N K i1 = Except.ok res1)
    (h2 : gatherIdx (sortRows K N d) N K i2 = Except.ok res2) :
    res1.length = K ∧ res2.length = K ∧
      ∀ t, t < K → res1.getD t 0 ≤ res2.getD t 0 := by
  obtain ⟨hl1, he1⟩ := gatherIdx_ok_elim h1
  obtain ⟨hl2, he2⟩ := gatherIdx_ok_elim h2
  refine ⟨hl1, hl2, ?_⟩
  intro t ht
  obtain ⟨⟨h01, h1N⟩, hr1⟩ := he1 t ht
  obtain ⟨⟨h02, h2N⟩, hr2⟩ := he2 t ht
  exact gather_mono_in_row hd ht (hle (by omega)) h01 h2N hr1 hr2

/-- The weighted-blend path is elementwise monotone in the rank. -/
theorem blend_path_mono {K N nkeep : ℕ} {d : List ℚ}
    (hd : d.length = K * N) (hK : nkeep = 0 → K = 1) {x1 x2 : ℚ}
    (hx : 1 ≤ N → x1 ≤ x2) {res1 res2 : List ℚ}
    (h1 : blendIdx (sortRows K N d) N K nkeep x1 = Except.ok res1)
    (h2 : blendIdx (sortRows K N d) N K nkeep x2 = Except.ok res2) :
    res1.length = K ∧ res2.length = K ∧
      ∀ t, t < K → res1.getD t 0 ≤ res2.getD t 0 := by
  obtain ⟨hl1, he1⟩ := blendIdx_ok_elim hK h1
  obtain ⟨hl2, he2⟩ := blendIdx_ok_elim hK h2
  refine ⟨hl1, hl2, ?_⟩
  intro t ht
  have hKpos : 0 < K := by omega
  have hlast := he2 (K - 1) (by omega)
  obtain ⟨hf2, w2, w2', hr2, hr2', hv2⟩ := blendOne_ok_elim hlast
  have hlen2 : (K - 1) * N + ⌊x2⌋.toNat + 1 < (sortRows K N d).length :=
    (List.getElem?_eq_some_iff.mp hr2').1
  rw [sortRows_length hd] at hlen2
  have hmulKN : (K - 1) * N + N = K * N := by
    cases K with
    | zero => exact absurd hKpos (by omega)
    | succ k => rw [Nat.succ_sub_one, Nat.succ_mul]
  have hb2 : ⌊x2⌋.toNat + 1 < N := by omega
  exact blendOne_mono_in_row hd ht (hx (by omega)) hb2 (he1 t ht) (he2 t ht)

/-- C4: for a fixed array, axis and interpolation policy, `percentile`
is monotonically non-decreasing in the (scalar) quantile: whenever two
calls with `q1 ≤ q2` both complete, the results have the same shape and
every element of the first is at most the corresponding element of the
second. -/
theorem claim4_percentile_monotone_in_q (a : NDArray) (axis : AxisArg)
    (interp : String) (kd : Bool) (x1 x2 : ℚ) (r1 r2 : NDArray)
    (hwf : a.data.length = a.shape.prod) (hx : x1 ≤ x2)
    (h1 : percentile a ⟨[], [x1]⟩ axis interp kd = Except.ok r1)
    (h2 : percentile a ⟨[], [x2]⟩ axis interp kd = Except.ok r2) :
    r1.shape = r2.shape ∧
      ∀ i, i < r1.data.length → r1.data.getD i 0 ≤ r2.data.getD i 0 := by
  obtain ⟨qd1, z1, kdim1, kept1, N1, ap1, dt1, data1, hq1, hk1, ha1, hd1, has1⟩ :=
    percentile_ok_elim h1
  obtain ⟨qd2, z2, kdim2, kept2, N2, ap2, dt2, data2, hq2, hk2, ha2, hd2, has2⟩ :=
    percentile_ok_elim h2
  have hq1' : (Except.ok ([castQ a.dtype x1], true) :
      Except PErr (List ℚ × Bool)) = Except.ok (qd1, z1) := by
    rw [← hq1]
    unfold qPrep
    rw [if_neg (by simp)]
    rfl
  have hq2' : (Except.ok ([castQ a.dtype x2], true) :
      Except PErr (List ℚ × Bool)) = Except.ok (qd2, z2) := by
    rw [← hq2]
    unfold qPrep
    rw [if_neg (by simp)]
    rfl
  injection hq1' with hq1''
  injection hq2' with hq2''
  injection hq1'' with hqd1 hz1
  injection hq2'' with hqd2 hz2
  subst hqd1 hz1 hqd2 hz2
  rw [hk1] at hk2
  injection hk2 with hk2'
  subst hk2'
  rw [ha1] at ha2
  injection ha2 with ha2'
  injection ha2' with hkept ha2''
  injection ha2'' with hN hap
  subst hkept hN hap
  have hlen : ap1.length = kept1.prod * N1 := axisPrep_len hwf ha1
  have hKnk : kept1.length = 0 → kept1.prod = 1 := by
    intro h0
    rw [List.length_eq_zero.mp h0]
    rfl
  set c1 := castQ a.dtype x1 with hc1
  set c2 := castQ a.dtype x2 with hc2
  have hc : c1 ≤ c2 := castQ_mono _ hx
  have hmap1 : [c1].map (rankOf N1) = [rankOf N1 c1] := rfl
  have hmap2 : [c2].map (rankOf N1) = [rankOf N1 c2] := rfl
  rw [hmap1] at hd1
  rw [hmap2] at hd2
  have hfinish : data1.length = kept1.prod ∧ data2.length = kept1.prod ∧
      ∀ t, t < kept1.prod → data1.getD t 0 ≤ data2.getD t 0 := by
    unfold dispatchGather at hd1 hd2
    by_cases hlo : interp = "lower"
    · rw [if_pos hlo] at hd1 hd2
      obtain ⟨hdt1, inner1, hi1, hdata1⟩ := mapE_single_flatten_ok hd1
      obtain ⟨hdt2, inner2, hi2, hdata2⟩ := mapE_single_flatten_ok hd2
      subst hdata1 hdata2
      exact take_path_mono hlen
        (fun hN => Int.floor_le_floor (rankOf_mono hN hc)) hi1 hi2
    · rw [if_neg hlo] at hd1 hd2
      by_cases hhi : interp = "higher"
      · rw [if_pos hhi] at hd1 hd2
        obtain ⟨hdt1, inner1, hi1, hdata1⟩ := mapE_single_flatten_ok hd1
        obtain ⟨hdt2, inner2, hi2, hdata2⟩ := mapE_single_flatten_ok hd2
        subst hdata1 hdata2
        exact take_path_mono hlen
          (fun hN => Int.ceil_le_ceil (rankOf_mono hN hc)) hi1 hi2
      · rw [if_neg hhi] at hd1 hd2
        by_cases hmi : interp = "midpoint"
        · rw [if_pos hmi] at hd1 hd2
          obtain ⟨hdt1, inner1, hi1, hdata1⟩ := mapE_single_flatten_ok hd1
          obtain ⟨hdt2, inner2, hi2, hdata2⟩ := mapE_single_flatten_ok hd2
          subst hdata1 hdata2
          exact blend_path_mono hlen hKnk
            (fun hN => midRank_mono (rankOf_mono hN hc)) hi1 hi2
        · rw [if_neg hmi] at hd1 hd2
          by_cases hne : interp = "nearest"
          · rw [if_pos hne] at hd1
            cases hd1
          · rw [if_neg hne] at hd1 hd2
            by_cases hli : interp = "linear"
            · rw [if_pos hli] at hd1 hd2
              obtain ⟨hdt1, inner1, hi1, hdata1⟩ := mapE_single_flatten_ok hd1
              obtain ⟨hdt2, inner2, hi2, hdata2⟩ := mapE_single_flatten_ok hd2
              subst hdata1 hdata2
              exact blend_path_mono hlen hKnk
                (fun hN => rankOf_mono hN hc) hi1 hi2
            · rw [if_neg hli] at hd1
              cases hd1
  obtain ⟨hdlen1, hdlen2, hdmono⟩ := hfinish
  have hdata1' : r1.data = data1 := assemble_ok_data has1
  have hdata2' : r2.data = data2 := assemble_ok_data has2
  constructor
  · exact assemble_ok_shape_congr has1 has2 (by rw [hdlen1, hdlen2])
  · intro i hi
    rw [hdata1'] at hi ⊢
    rw [hdata2']
    exact hdmono i (by rw [← hdlen1]; exact hi)

theorem claim4_percentile_monotone_in_q_witness :
    (⟨DType.float64, [], [7 / 4]⟩ : NDArray).shape =
      (⟨DType.float64, [], [13 / 4]⟩ : NDArray).shape ∧
    ∀ i, i < (⟨DType.float64, [], [7 / 4]⟩ : NDArray).data.length →
      (⟨DType.float64, [], [7 / 4]⟩ : NDArray).data.getD i 0 ≤
        (⟨DType.float64, [], [13 / 4]⟩ : NDArray).data.getD i 0 :=
  claim4_percentile_monotone_in_q ⟨DType.float64, [4], [3, 1, 4, 2]⟩
    AxisArg.noneAx "linear" false 25 75 ⟨DType.float64, [], [7 / 4]⟩
    ⟨DType.float64, [], [13 / 4]⟩ (by decide) (by decide) (by decide)
    (by decide)

/-! ### Index arithmetic for the axis permutation (claim C5) -/

theorem unflatten_length (ds : List ℕ) (k : ℕ) :
    (unflatten ds k).length = ds.length := by
  induction ds generalizing k with
  | nil => rfl
  | cons d ds ih => simp [unflatten, ih]

theorem unflatten_lt {ds : List ℕ} {k : ℕ} (hk : k < ds.prod) :
    ∀ p, p < ds.length → (unflatten ds k).getD p 0 < ds.getD p 0 := by
  induction ds generalizing k with
  | nil => intro p hp; cases hp
  | cons d ds ih =>
    intro p hp
    have hpos : 0 < ds.prod := by
      rcases Nat.eq_zero_or_pos ds.prod with h0 | h
      · rw [List.prod_cons, h0, Nat.mul_zero] at hk
        cases hk
      · exact h
    cases p with
    | zero =>
      show k / ds.prod < d
      rw [Nat.div_lt_iff_lt_mul hpos]
      rw [List.prod_cons] at hk
      omega
    | succ p' =>
      show (unflatten ds (k % ds.prod)).getD p' 0 < ds.getD p' 0
      exact ih (Nat.mod_lt k hpos) p' (by simpa using hp)

theorem flattenIdx_lt {ds cs : List ℕ} (hlen : cs.length = ds.length)
    (hbound : ∀ p, p < ds.length → cs.getD p 0 < ds.getD p 0) :
    flattenIdx ds cs < ds.prod := by
  induction ds generalizing cs with
  | nil =>
    cases cs with
    | nil => exact Nat.zero_lt_one
    | cons c cs => cases hlen
  | cons d ds ih =>
    cases cs with
    | nil => cases hlen
    | cons c cs =>
      show c * ds.prod + flattenIdx ds cs < (d :: ds).prod
      have hc : c < d := hbound 0 (by simp)
      have hf : flattenIdx ds cs < ds.prod :=
        ih (by simpa using hlen)
          (fun p hp => hbound (p + 1) (by simpa using hp))
      rw [List.prod_cons]
      calc c * ds.prod + flattenIdx ds cs < c * ds.prod + ds.prod := by omega
      _ = (c + 1) * ds.prod := by ring
      _ ≤ d * ds.prod := Nat.mul_le_mul_right _ (by omega)

theorem unflatten_flattenIdx {ds cs : List ℕ} (hlen : cs.length = ds.length)
    (hbound : ∀ p, p < ds.length → cs.getD p 0 < ds.getD p 0) :
    unflatten ds (flattenIdx ds cs) = cs := by
  induction ds generalizing cs with
  | nil =>
    cases cs with
    | nil => rfl
    | cons c cs => cases hlen
  | cons d ds ih =>
    cases cs with
    | nil => cases hlen
    | cons c cs =>
      have hf : flattenIdx ds cs < ds.prod :=
        flattenIdx_lt (by simpa using hlen)
          (fun p hp => hbound (p + 1) (by simpa using hp))
      have hpos : 0 < ds.prod := by omega
      show (c * ds.prod + flattenIdx ds cs) / ds.prod ::
        unflatten ds ((c * ds.prod + flattenIdx ds cs) % ds.prod) = c :: cs
      have hdiv : (c * ds.prod + flattenIdx ds cs) / ds.prod = c := by
        rw [Nat.mul_comm c ds.prod, Nat.mul_add_div hpos,
          Nat.div_eq_of_lt hf, Nat.add_zero]
      have hmod : (c * ds.prod + flattenIdx ds cs) % ds.prod =
          flattenIdx ds cs := by
        rw [Nat.mul_comm c ds.prod, Nat.mul_add_mod]
        exact Nat.mod_eq_of_lt hf
      rw [hdiv, hmod,
        ih (by simpa using hlen) (fun p hp => hbound (p + 1) (by simpa using hp))]

theorem unflatten_append {u w : List ℕ} {t j : ℕ} (ht : t < u.prod)
    (hj : j < w.prod) :
    unflatten (u ++ w) (t * w.prod + j) =
      unflatten u t ++ unflatten w j := by
  induction u generalizing t with
  | nil =>
    have ht0 : t = 0 := by
      rw [List.prod_nil] at ht
      omega
    subst ht0
    simp [unflatten]
  | cons d ds ih =>
    have hP : 0 < w.prod := by omega
    have hdsP : (ds ++ w).prod = ds.prod * w.prod := by
      rw [List.prod_append]
    have hdspos : 0 < ds.prod := by
      rcases Nat.eq_zero_or_pos ds.prod with h0 | h
      · rw [List.prod_cons, h0, Nat.mul_zero] at ht
        cases ht
      · exact h
    show (t * w.prod + j) / (ds ++ w).prod ::
        unflatten (ds ++ w) ((t * w.prod + j) % (ds ++ w).prod) =
      t / ds.prod :: (unflatten ds (t % ds.prod) ++ unflatten w j)
    have hdiv : (t * w.prod + j) / (ds ++ w).prod = t / ds.prod := by
      rw [hdsP, Nat.mul_comm ds.prod w.prod, ← Nat.div_div_eq_div_mul]
      rw [Nat.mul_comm t w.prod, Nat.mul_add_div hP, Nat.div_eq_of_lt hj,
        Nat.add_zero]
    have ht2 : t % ds.prod < ds.prod := Nat.mod_lt _ hdspos
    have hr : (t % ds.prod) * w.prod + j < ds.prod * w.prod := by
      calc (t % ds.prod) * w.prod + j
          < (t % ds.prod) * w.prod + w.prod := by omega
        _ = (t % ds.prod + 1) * w.prod := by ring
        _ ≤ ds.prod * w.prod := Nat.mul_le_mul_right _ (by omega)
    have hmod : (t * w.prod + j) % (ds ++ w).prod =
        (t % ds.prod) * w.prod + j := by
      have hexp : t * w.prod + j = (ds.prod * w.prod) * (t / ds.prod) +
          ((t % ds.prod) * w.prod + j) := by
        have hdm := Nat.div_add_mod t ds.prod
        calc t * w.prod + j
            = (ds.prod * (t / ds.prod) + t % ds.prod) * w.prod + j := by
              rw [hdm]
          _ = (ds.prod * w.prod) * (t / ds.prod) +
              ((t % ds.prod) * w.prod + j) := by ring
      rw [hdsP, hexp, Nat.mul_add_mod]
      exact Nat.mod_eq_of_lt hr
    rw [hdiv, hmod, ih ht2]

theorem swapList_length (i j : ℕ) (l : List ℕ) :
    (swapList i j l).length = l.length := by
  unfold swapList
  rw [List.length_set, List.length_set]

theorem getD_swapList {i j : ℕ} {l : List ℕ} (hi : i < l.length)
    (hj : j < l.length) (p : ℕ) :
    (swapList i j l).getD p 0 =
      if p = j then l.getD i 0
      else if p = i then l.getD j 0
      else l.getD p 0 := by
  unfold swapList
  by_cases hpj : p = j
  · subst hpj
    rw [if_pos rfl]
    rw [List.getD_eq_getElem?_getD]
    rw [List.getElem?_set_self' ]
    rw [List.getElem?_eq_getElem (by rw [List.length_set]; exact hj)]
    simp
  · rw [if_neg hpj]
    rw [List.getD_eq_getElem?_getD, List.getElem?_set_ne (fun h => hpj h.symm)]
    by_cases hpi : p = i
    · subst hpi
      rw [if_pos rfl]
      rw [List.getElem?_set_self']
      rw [List.getElem?_eq_getElem hi]
      simp
    · rw [if_neg hpi]
      rw [List.getElem?_set_ne (fun h => hpi h.symm)]
      rw [List.getD_eq_getElem?_getD]

theorem getD_applyP (P l : List ℕ) {p : ℕ} (hp : p < P.length) :
    (applyP P l).getD p 0 = l.getD (P.getD p 0) 0 := by
  unfold applyP
  rw [List.getD_eq_getElem?_getD, List.getElem?_map,
    List.getElem?_eq_getElem hp, getD_eq_getElem (l := P) 0 hp]
  simp

theorem applyP_length (P l : List ℕ) : (applyP P l).length = P.length := by
  unfold applyP
  rw [List.length_map]

theorem swapList_applyP {i j : ℕ} {P : List ℕ} (l : List ℕ)
    (hi : i < P.length) (hj : j < P.length) :
    swapList i j (applyP P l) = applyP (swapList i j P) l := by
  have hlen : (swapList i j (applyP P l)).length =
      (applyP (swapList i j P) l).length := by
    rw [swapList_length, applyP_length, applyP_length, swapList_length]
  refine List.ext_getElem hlen ?_
  intro p hp1 hp2
  have hp : p < P.length := by
    rw [swapList_length, applyP_length] at hp1
    exact hp1
  have hi' : i < (applyP P l).length := by rw [applyP_length]; exact hi
  have hj' : j < (applyP P l).length := by rw [applyP_length]; exact hj
  rw [← getD_eq_getElem 0 hp1, ← getD_eq_getElem 0 hp2]
  rw [getD_applyP _ _ (show p < (swapList i j P).length by
    rw [swapList_length]; exact hp)]
  rw [getD_swapList hi hj p]
  rw [getD_swapList hi' hj' p]
  by_cases hpj : p = j
  · rw [if_pos hpj, if_pos hpj, getD_applyP _ _ hi]
  · rw [if_neg hpj, if_neg hpj]
    by_cases hpi : p = i
    · rw [if_pos hpi, if_pos hpi, getD_applyP _ _ hj]
    · rw [if_neg hpi, if_neg hpi, getD_applyP _ _ hp]

theorem swapList_involutive {i j : ℕ} {l : List ℕ} (hi : i < l.length)
    (hj : j < l.length) : swapList i j (swapList i j l) = l := by
  have hi' : i < (swapList i j l).length := by rw [swapList_length]; exact hi
  have hj' : j < (swapList i j l).length := by rw [swapList_length]; exact hj
  refine List.ext_getElem (by rw [swapList_length, swapList_length]) ?_
  intro p hp1 hp2
  rw [← getD_eq_getElem 0 hp1, ← getD_eq_getElem 0 hp2]
  by_cases hpj : p = j
  · rw [getD_swapList hi' hj' p, if_pos hpj, getD_swapList hi hj i]
    by_cases hij : i = j
    · rw [if_pos hij, hpj, hij]
    · rw [if_neg hij, if_pos rfl, hpj]
  · by_cases hpi : p = i
    · rw [getD_swapList hi' hj' p, if_neg hpj, if_pos hpi,
        getD_swapList hi hj j, if_pos rfl, hpi]
    · rw [getD_swapList hi' hj' p, if_neg hpj, if_neg hpi,
        getD_swapList hi hj p, if_neg hpj, if_neg hpi]

theorem swapList_mem {i j : ℕ} {l : List ℕ} (hi : i < l.length)
    (hj : j < l.length) {x : ℕ} (hx : x ∈ swapList i j l) : x ∈ l := by
  unfold swapList at hx
  rcases List.mem_or_eq_of_mem_set hx with hx1 | hx1
  · rcases List.mem_or_eq_of_mem_set hx1 with hx2 | hx2
    · exact hx2
    · rw [hx2]
      exact getD_mem_of_lt 0 hj
  · rw [hx1]
    exact getD_mem_of_lt 0 hi

theorem swapPerm_length (pairs : List (ℕ × ℕ)) (n : ℕ) :
    (swapPerm pairs n).length = n := by
  induction pairs with
  | nil => exact List.length_range n
  | cons pr rest ih =>
    show (swapList pr.1 pr.2 (swapPerm rest n)).length = n
    rw [swapList_length, ih]

theorem swapPerm_mem {pairs : List (ℕ × ℕ)} {n : ℕ}
    (hb : ∀ pr ∈ pairs, pr.1 < n ∧ pr.2 < n) :
    ∀ x ∈ swapPerm pairs n, x < n := by
  induction pairs with
  | nil =>
    intro x hx
    exact List.mem_range.mp hx
  | cons pr rest ih =>
    intro x hx
    have hlen := swapPerm_length rest n
    obtain ⟨h1, h2⟩ := hb pr (by simp)
    exact ih (fun q hq => hb q (by simp [hq])) x
      (swapList_mem (by rw [hlen]; exact h1) (by rw [hlen]; exact h2) hx)

/-- The fold of `swapaxes` views reads through the net permutation. -/
theorem applyP_range (n : ℕ) {c : List ℕ} (hc : c.length = n) :
    applyP (List.range n) c = c := by
  refine List.ext_getElem (by rw [applyP_length, List.length_range, hc]) ?_
  intro p hp1 hp2
  have hpn : p < n := by
    rw [applyP_length, List.length_range] at hp1
    exact hp1
  rw [← getD_eq_getElem 0 hp1, ← getD_eq_getElem 0 hp2]
  rw [getD_applyP _ _ (by rw [List.length_range]; exact hpn)]
  congr 1
  rw [List.getD_eq_getElem?_getD, List.getElem?_range hpn]
  rfl

/-- The fold of `swapaxes` views reads through the net permutation. -/
theorem foldl_swapaxes_vget (pairs : List (ℕ × ℕ)) (n : ℕ) (v : View)
    (hb : ∀ pr ∈ pairs, pr.1 < n ∧ pr.2 < n) (c : List ℕ)
    (hc : c.length = n) :
    (pairs.foldl (fun w p => View.swapaxes w p.1 p.2) v).vget c =
      v.vget (applyP (swapPerm pairs n) c) := by
  induction pairs generalizing v with
  | nil =>
    show v.vget c = v.vget (applyP (List.range n) c)
    rw [applyP_range n hc]
  | cons pr rest ih =>
    show (rest.foldl (fun w p => View.swapaxes w p.1 p.2)
        (v.swapaxes pr.1 pr.2)).vget c = _
    rw [ih (v.swapaxes pr.1 pr.2) (fun q hq => hb q (by simp [hq]))]
    show v.vget (swapList pr.1 pr.2 (applyP (swapPerm rest n) c)) = _
    obtain ⟨h1, h2⟩ := hb pr (by simp)
    have hlen := swapPerm_length rest n
    rw [swapList_applyP c (by rw [hlen]; exact h1) (by rw [hlen]; exact h2)]
    rfl

theorem foldl_swapaxes_vshape_length (pairs : List (ℕ × ℕ)) (v : View) :
    (pairs.foldl (fun w p => View.swapaxes w p.1 p.2) v).vshape.length =
      v.vshape.length := by
  induction pairs generalizing v with
  | nil => rfl
  | cons pr rest ih =>
    show (rest.foldl (fun w p => View.swapaxes w p.1 p.2)
        (v.swapaxes pr.1 pr.2)).vshape.length = _
    rw [ih (v.swapaxes pr.1 pr.2)]
    show (swapList pr.1 pr.2 v.vshape).length = _
    rw [swapList_length]

/-- The original shape is recovered from the folded shape through the
net permutation. -/
theorem foldl_swapaxes_vshape (pairs : List (ℕ × ℕ)) (n : ℕ) (v : View)
    (hb : ∀ pr ∈ pairs, pr.1 < n ∧ pr.2 < n) (hv : v.vshape.length = n) :
    applyP (swapPerm pairs n)
      (pairs.foldl (fun w p => View.swapaxes w p.1 p.2) v).vshape =
      v.vshape := by
  induction pairs generalizing v with
  | nil => exact applyP_range n hv
  | cons pr rest ih =>
    obtain ⟨h1, h2⟩ := hb pr (by simp)
    have hlen := swapPerm_length rest n
    show applyP (swapList pr.1 pr.2 (swapPerm rest n)) _ = _
    rw [← swapList_applyP _ (by rw [hlen]; exact h1) (by rw [hlen]; exact h2)]
    have hih : applyP (swapPerm rest n)
        (rest.foldl (fun w p => View.swapaxes w p.1 p.2)
          (v.swapaxes pr.1 pr.2)).vshape = (v.swapaxes pr.1 pr.2).vshape :=
      ih (v.swapaxes pr.1 pr.2) (fun q hq => hb q (by simp [hq]))
        (by show (swapList pr.1 pr.2 v.vshape).length = n
            rw [swapList_length, hv])
    show swapList pr.1 pr.2 (applyP (swapPerm rest n)
      (rest.foldl (fun w p => View.swapaxes w p.1 p.2)
        (v.swapaxes pr.1 pr.2)).vshape) = v.vshape
    rw [hih]
    show swapList pr.1 pr.2 (swapList pr.1 pr.2 v.vshape) = v.vshape
    exact swapList_involutive (by rw [hv]; exact h1) (by rw [hv]; exact h2)

theorem pairwise_lt_getD_ge {ks : List ℕ} (hpw : ks.Pairwise (· < ·)) :
    ∀ (b : ℕ), (∀ x ∈ ks, b ≤ x) →
      ∀ p, p < ks.length → b + p ≤ ks.getD p 0 := by
  induction ks with
  | nil => intro b _ p hp; cases hp
  | cons k rest ih =>
    intro b hb p hp
    have hpw' := List.pairwise_cons.mp hpw
    cases p with
    | zero => simpa using hb k (by simp)
    | succ p' =>
      have hrest : ∀ x ∈ rest, k + 1 ≤ x := fun x hx => hpw'.1 x hx
      have hih := ih hpw'.2 (k + 1) hrest p' (by simpa using hp)
      have hbk : b ≤ k := hb k (by simp)
      show b + (p' + 1) ≤ rest.getD p' 0
      omega

/-- The key invariant of the iterated `swapaxes(i, s)` loop: after the
swaps, the net permutation sends position `ks p` (the `p`-th kept axis)
to slot `i + p`, and leaves every position below `i` alone. -/
theorem swapPerm_enumFrom_spec (n : ℕ) (ks : List ℕ) :
    ∀ (i : ℕ), (∀ x ∈ ks, x < n) → ks.Pairwise (· < ·) →
    (∀ p, p < ks.length → i + p ≤ ks.getD p 0) →
    (∀ p, p < ks.length →
      (swapPerm (ks.enumFrom i) n).getD (ks.getD p 0) 0 = i + p) ∧
    (∀ q, q < i → q < n → (swapPerm (ks.enumFrom i) n).getD q 0 = q) := by
  induction ks with
  | nil =>
    intro i _ _ _
    refine ⟨fun p hp => absurd hp (by simp), fun q hq hqn => ?_⟩
    show (List.range n).getD q 0 = q
    rw [List.getD_eq_getElem?_getD, List.getElem?_range hqn]
    rfl
  | cons k rest ih =>
    intro i hmem hpw hbound
    have hk_n : k < n := hmem k (by simp)
    have hki : i ≤ k := by simpa using hbound 0 (by simp)
    have hrest_mem : ∀ x ∈ rest, x < n := fun x hx => hmem x (by simp [hx])
    have hpw' := List.pairwise_cons.mp hpw
    have hrest_bound : ∀ p, p < rest.length → (i + 1) + p ≤ rest.getD p 0 := by
      intro p hp
      have hb := hbound (p + 1) (by simpa using hp)
      have hps : (k :: rest).getD (p + 1) 0 = rest.getD p 0 := rfl
      omega
    obtain ⟨ihA, ihB⟩ := ih (i + 1) hrest_mem hpw'.2 hrest_bound
    have hS'len : (swapPerm (rest.enumFrom (i + 1)) n).length = n :=
      swapPerm_length _ _
    have hshow : swapPerm ((k :: rest).enumFrom i) n =
        swapList i k (swapPerm (rest.enumFrom (i + 1)) n) := rfl
    rw [hshow]
    have hiB : i < (swapPerm (rest.enumFrom (i + 1)) n).length := by
      rw [hS'len]
      omega
    have hkB : k < (swapPerm (rest.enumFrom (i + 1)) n).length := by
      rw [hS'len]
      exact hk_n
    constructor
    · intro p hp
      cases p with
      | zero =>
        show (swapList i k (swapPerm (rest.enumFrom (i + 1)) n)).getD k 0 =
          i + 0
        rw [getD_swapList hiB hkB k, if_pos rfl]
        rw [ihB i (by omega) (by omega)]
        omega
      | succ p' =>
        have hp' : p' < rest.length := by simpa using hp
        have hval := ihA p' hp'
        have hgt : k < rest.getD p' 0 := hpw'.1 _ (getD_mem_of_lt 0 hp')
        show (swapList i k (swapPerm (rest.enumFrom (i + 1)) n)).getD
          (rest.getD p' 0) 0 = i + (p' + 1)
        rw [getD_swapList hiB hkB (rest.getD p' 0)]
        rw [if_neg (by omega), if_neg (by omega), hval]
        omega
    · intro q hq hqn
      rw [getD_swapList hiB hkB q, if_neg (by omega), if_neg (by omega)]
      exact ihB q (by omega) hqn

theorem getD_append_left {l1 l2 : List ℕ} {p : ℕ} (h : p < l1.length) :
    (l1 ++ l2).getD p 0 = l1.getD p 0 := by
  rw [List.getD_append _ _ _ _ h]

theorem getD_append_right' {l1 l2 : List ℕ} {p : ℕ} (h : l1.length ≤ p) :
    (l1 ++ l2).getD p 0 = l2.getD (p - l1.length) 0 := by
  rw [List.getD_eq_getElem?_getD, List.getElem?_append_right h,
    List.getD_eq_getElem?_getD]

theorem getD_drop' (l : List ℕ) (i k : ℕ) :
    (l.drop i).getD k 0 = l.getD (i + k) 0 := by
  rw [List.getD_eq_getElem?_getD, List.getElem?_drop,
    List.getD_eq_getElem?_getD]

theorem getD_take' {l : List ℕ} {m p : ℕ} (h : p < m) :
    (l.take m).getD p 0 = l.getD p 0 := by
  rw [List.getD_eq_getElem?_getD, List.getElem?_take, if_pos h,
    List.getD_eq_getElem?_getD]

theorem getD_map' (f : ℕ → ℕ) {l : List ℕ} {p : ℕ} (h : p < l.length) :
    (l.map f).getD p 0 = f (l.getD p 0) := by
  rw [List.getD_eq_getElem?_getD, List.getElem?_map,
    List.getElem?_eq_getElem h]
  simp [List.getD_eq_getElem?_getD, List.getElem?_eq_getElem h]

theorem materialize_getD {v : View} {k : ℕ} (hk : k < v.vshape.prod) :
    v.materialize.getD k 0 = v.vget (unflatten v.vshape k) := by
  unfold View.materialize
  rw [List.getD_eq_getElem?_getD, List.getElem?_map,
    List.getElem?_eq_getElem (by rw [List.length_range]; exact hk)]
  simp [List.getElem_range]

theorem materialize_length (v : View) :
    v.materialize.length = v.vshape.prod := by
  unfold View.materialize
  rw [List.length_map, List.length_range]

theorem keptAxes_pairwise (n : ℕ) (axN : List ℕ) :
    (keptAxes n axN).Pairwise (· < ·) :=
  (List.pairwise_lt_range n).filter _

theorem keptAxes_mem_lt {n : ℕ} {axN : List ℕ} {x : ℕ}
    (hx : x ∈ keptAxes n axN) : x < n :=
  List.mem_range.mp (List.mem_of_mem_filter hx)

theorem keptAxes_length_le (n : ℕ) (axN : List ℕ) :
    (keptAxes n axN).length ≤ n := by
  have h := List.length_filter_le (fun i => decide (i ∉ axN)) (List.range n)
  rw [List.length_range] at h
  exact h

/-- The heart of claim C5: after `axisPrepTup`, every entry of row `t`
of the working buffer is an element of the `t`-th reduction slice of
the original array, and the kept shape is the kept-axis shape of the
original array. -/
theorem axisPrepTup_rows_in_slices {a : NDArray} {l : List ℤ}
    {kept : List ℕ} {N : ℕ} {apRaw : List ℚ}
    (h : axisPrepTup a l = Except.ok (kept, N, apRaw)) :
    kept = keptShapeOf a (normAxes a.shape.length l) ∧
    ∀ t, t < kept.prod → ∀ j, j < N →
      apRaw.getD (t * N + j) 0 ∈ sliceVals a (normAxes a.shape.length l) t := by
  unfold axisPrepTup at h
  split at h
  · cases h
  · dsimp only at h
    injection h with h'
    injection h' with hkept h''
    injection h'' with hN hap
    -- abbreviations
    set n := a.shape.length with hn
    set axN := normAxes n l with haxN
    set ks := keptAxes n axN with hks
    set m := ks.length with hm
    set v := ks.enum.foldl (fun w p => View.swapaxes w p.1 p.2) a.toView
      with hv
    set P := swapPerm ks.enum n with hP
    have hmn : m ≤ n := keptAxes_length_le n axN
    have hb : ∀ pr ∈ ks.enum, pr.1 < n ∧ pr.2 < n := by
      intro pr hpr
      constructor
      · have := List.fst_lt_of_mem_enum hpr
        omega
      · exact keptAxes_mem_lt (List.snd_mem_of_mem_enum hpr)
    have hvlen : v.vshape.length = n := by
      rw [hv, foldl_swapaxes_vshape_length]
      rfl
    have hPlen : P.length = n := swapPerm_length _ _
    have hPmem : ∀ x ∈ P, x < n := swapPerm_mem hb
    have hshape : applyP P v.vshape = a.shape :=
      foldl_swapaxes_vshape ks.enum n a.toView hb rfl
    have henum : ks.enum = ks.enumFrom 0 := rfl
    have hKey := swapPerm_enumFrom_spec n ks 0 (fun x hx => keptAxes_mem_lt hx)
      (keptAxes_pairwise n axN)
      (fun p hp => pairwise_lt_getD_ge (keptAxes_pairwise n axN) 0
        (fun x _ => Nat.zero_le x) p hp)
    have hA : ∀ p, p < m → P.getD (ks.getD p 0) 0 = p := by
      intro p hp
      rw [hP, henum]
      rw [(hKey.1 p hp : _)]
      omega
    have h_shape_getD : ∀ q, q < n →
        a.shape.getD q 0 = v.vshape.getD (P.getD q 0) 0 := by
      intro q hq
      conv_lhs => rw [← hshape]
      rw [getD_applyP _ _ (by rw [hPlen]; exact hq)]
    have hkept_eq : v.vshape.take m = keptShapeOf a axN := by
      unfold keptShapeOf
      rw [← hks]
      refine List.ext_getElem ?_ ?_
      · rw [List.length_take, List.length_map, hvlen]
        omega
      · intro p hp1 hp2
        have hpm : p < m := by
          rw [List.length_take, hvlen] at hp1
          omega
        rw [← getD_eq_getElem 0 hp1, ← getD_eq_getElem 0 hp2]
        rw [getD_take' hpm, getD_map' _ (by rw [← hm]; exact hpm)]
        rw [h_shape_getD (ks.getD p 0) (keptAxes_mem_lt (getD_mem_of_lt 0
          (by rw [← hm]; exact hpm)))]
        rw [hA p hpm]
    constructor
    · rw [← hkept, hkept_eq]
    · intro t ht j hj
      rw [← hkept] at ht
      rw [← hN] at hj
      -- shapes of the two unflatten halves
      have htake_len : (v.vshape.take m).length = m := by
        rw [List.length_take, hvlen]
        omega
      have hdrop_len : (v.vshape.drop m).length = n - m := by
        rw [List.length_drop, hvlen]
      have hprod : v.vshape.prod = (v.vshape.take m).prod *
          (v.vshape.drop m).prod := (List.prod_take_mul_prod_drop _ _).symm
      have htj : t * (v.vshape.drop m).prod + j < v.vshape.prod := by
        rw [hprod]
        have h1 : t * (v.vshape.drop m).prod + j <
            (t + 1) * (v.vshape.drop m).prod := by
          rw [Nat.succ_mul]
          omega
        have h2 : (t + 1) * (v.vshape.drop m).prod ≤
            (v.vshape.take m).prod * (v.vshape.drop m).prod :=
          Nat.mul_le_mul_right _ ht
        omega
      set tc := unflatten (v.vshape.take m) t with htc
      set rj := unflatten (v.vshape.drop m) j with hrj
      have htc_len : tc.length = m := by
        rw [htc, unflatten_length, htake_len]
      have hrj_len : rj.length = n - m := by
        rw [hrj, unflatten_length, hdrop_len]
      have hc_len : (tc ++ rj).length = n := by
        rw [List.length_append, htc_len, hrj_len]
        omega
      -- the raw element is the view at the split coordinates
      have hsplit : unflatten v.vshape (t * (v.vshape.drop m).prod + j) =
          tc ++ rj := by
        have hspl := unflatten_append (u := v.vshape.take m)
          (w := v.vshape.drop m) ht hj
        rw [List.take_append_drop] at hspl
        exact hspl
      have helem : apRaw.getD (t * (v.vshape.drop m).prod + j) 0 =
          v.vget (tc ++ rj) := by
        rw [← hap, materialize_getD htj, hsplit]
      -- through the net permutation
      have hvget : v.vget (tc ++ rj) =
          a.toView.vget (applyP P (tc ++ rj)) := by
        rw [hv, hP]
        exact foldl_swapaxes_vget ks.enum n a.toView hb (tc ++ rj) hc_len
      set c' := applyP P (tc ++ rj) with hc'
      have hc'_len : c'.length = n := by
        rw [hc', applyP_length, hPlen]
      -- pointwise bounds
      have hbound_s : ∀ s, s < n → (tc ++ rj).getD s 0 <
          v.vshape.getD s 0 := by
        intro s hs
        by_cases hsm : s < m
        · rw [getD_append_left (by rw [htc_len]; exact hsm)]
          rw [htc]
          have := unflatten_lt ht s (by rw [htake_len]; exact hsm)
          rw [getD_take' hsm] at this
          exact this
        · rw [getD_append_right' (by rw [htc_len]; omega), htc_len]
          rw [hrj]
          have := unflatten_lt hj (s - m) (by rw [hdrop_len]; omega)
          rw [getD_drop'] at this
          have harith : m + (s - m) = s := by omega
          rw [harith] at this
          exact this
      have hc'_bound : ∀ q, q < n → c'.getD q 0 < a.shape.getD q 0 := by
        intro q hq
        rw [hc', getD_applyP _ _ (by rw [hPlen]; exact hq)]
        have hs : P.getD q 0 < n := hPmem _ (getD_mem_of_lt 0
          (by rw [hPlen]; exact hq))
        rw [h_shape_getD q hq]
        exact hbound_s _ hs
      -- the flat index in the original array
      set f' := flattenIdx a.shape c' with hf'
      have hf'_lt : f' < a.shape.prod :=
        flattenIdx_lt (by rw [hc'_len]) hc'_bound
      have hround : unflatten a.shape f' = c' :=
        unflatten_flattenIdx (by rw [hc'_len]) hc'_bound
      -- kept coordinates agree with the row's kept tuple
      have hkeptc : ∀ p, p < m → c'.getD (ks.getD p 0) 0 = tc.getD p 0 := by
        intro p hp
        have hksp : ks.getD p 0 < n := keptAxes_mem_lt (getD_mem_of_lt 0
          (by rw [← hm]; exact hp))
        rw [hc', getD_applyP _ _ (by rw [hPlen]; exact hksp)]
        rw [hA p hp]
        exact getD_append_left (by rw [htc_len]; exact hp)
      have hfilter : ks.map (fun p => (unflatten a.shape f').getD p 0) =
          unflatten (keptShapeOf a axN) t := by
        rw [← hkept_eq, ← htc, hround]
        refine List.ext_getElem (by rw [List.length_map, htc_len, hm]) ?_
        intro p hp1 hp2
        have hpm : p < m := by
          rw [List.length_map] at hp1
          rw [hm]
          exact hp1
        rw [← getD_eq_getElem 0 hp1, ← getD_eq_getElem 0 hp2]
        rw [getD_map' _ (by rw [← hm]; exact hpm)]
        exact hkeptc p hpm
      -- conclude membership in the slice
      have hmem_slice : a.data.getD f' 0 ∈ sliceVals a axN t := by
        unfold sliceVals
        refine List.mem_map.mpr ⟨f', ?_, rfl⟩
        refine List.mem_filter.mpr ⟨List.mem_range.mpr hf'_lt, ?_⟩
        exact decide_eq_true hfilter
      rw [← hN]
      rw [helem, hvget]
      show a.data.getD (flattenIdx a.shape c') 0 ∈ sliceVals a axN t
      rw [← hf']
      exact hmem_slice

/-- In the `take` path, every element of the flattened result is read
from some position of row `idx % K` of the (unsorted) working buffer. -/
theorem take_rows_elem {K N : ℕ} {apRaw : List ℚ} {g : ℚ → ℤ}
    {ranks : List ℚ} {rows : List (List ℚ)}
    (hlen : apRaw.length = K * N)
    (hrows : mapE (fun r => gatherIdx (sortRows K N apRaw) N K (g r))
      ranks = Except.ok rows) :
    ∀ idx, idx < rows.flatten.length →
      idx % K < K ∧ ∃ j, j < N ∧
        apRaw[(idx % K) * N + j]? = some (rows.flatten.getD idx 0) := by
  have hrl : rows.length = ranks.length := mapE_ok_length hrows
  have hrowok : ∀ qi, (hqi : qi < rows.length) →
      gatherIdx (sortRows K N apRaw) N K (g (ranks.getD qi 0)) =
        Except.ok rows[qi] := by
    intro qi hqi
    have hqi' : qi < ranks.length := by omega
    obtain ⟨v, hv, hres⟩ := mapE_ok_elem hrows
      (List.getElem?_eq_getElem hqi')
    rw [List.getElem?_eq_getElem hqi] at hres
    injection hres with hres'
    rw [← getD_eq_getElem 0 hqi'] at hv
    rw [hres']
    exact hv
  have hL : ∀ r ∈ rows, r.length = K := by
    intro r hr
    obtain ⟨qi, hqi, rfl⟩ := List.mem_iff_getElem.mp hr
    exact (gatherIdx_ok_elim (hrowok qi hqi)).1
  have hflen : rows.flatten.length = rows.length * K :=
    flatten_length_chunks hL
  intro idx hidx
  rw [hflen] at hidx
  have hK : 0 < K := by
    rcases Nat.eq_zero_or_pos K with h0 | h
    · rw [h0, Nat.mul_zero] at hidx
      cases hidx
    · exact h
  have ht : idx % K < K := Nat.mod_lt _ hK
  refine ⟨ht, ?_⟩
  set qi := idx / K with hqi_def
  set t := idx % K with ht_def
  have hqi : qi < rows.length := by
    rw [hqi_def, Nat.div_lt_iff_lt_mul hK]
    exact hidx
  have hsum : qi * K + t = idx := by
    have := Nat.div_add_mod idx K
    rw [hqi_def, ht_def, Nat.mul_comm]
    omega
  have hrow_len : rows[qi].length = K := hL _ (List.getElem_mem hqi)
  have hflat : rows.flatten[qi * K + t]? = rows[qi][t]? :=
    flatten_getElem?_chunks hL (List.getElem?_eq_getElem hqi) ht
  have hdata_eq : rows.flatten.getD idx 0 = rows[qi].getD t 0 := by
    rw [← hsum, List.getD_eq_getElem?_getD, hflat,
      List.getD_eq_getElem?_getD]
  obtain ⟨hrl', helem⟩ := gatherIdx_ok_elim (hrowok qi hqi)
  obtain ⟨⟨h0i, hiN⟩, hread⟩ := helem t ht
  have hjN : (g (ranks.getD qi 0)).toNat < N := by omega
  have hrow_read : (rowAt N apRaw t).getD (g (ranks.getD qi 0)).toNat 0 =
      rows[qi].getD t 0 :=
    sortRows_read_row hlen ht hjN hread
  obtain ⟨j', hj', hv⟩ := rowAt_getD_mem (N := N) (d := apRaw) (t := t)
    (j := (g (ranks.getD qi 0)).toNat)
    (by rw [rowAt_length hlen ht]; exact hjN)
  refine ⟨j', hj', ?_⟩
  rw [hv, hrow_read, hdata_eq]

/-- C5: under `lower` or `higher` interpolation, every element of a
successful `percentile` result is a member of the value set of the
corresponding original (unsorted) reduction slice of the input — the
slice whose kept-axis tuple is position `idx % K` of the output — so no
value absent from the input is synthesized. -/
theorem claim5_lower_higher_no_synthesized_values (a : NDArray) (q : QArr)
    (axis : AxisArg) (interp : String) (kd : Bool) (ret : NDArray)
    (hwf : a.data.length = a.shape.prod)
    (hint : interp = "lower" ∨ interp = "higher")
    (hok : percentile a q axis interp kd = Except.ok ret) :
    ∀ idx, idx < ret.data.length →
      ret.data.getD idx 0 ∈ sliceValsArg a axis (idx % keptProdArg a axis) := by
  obtain ⟨qd, zerod, keepdim, kept, N, apRaw, dtd, data, hq, hk, ha, hd, has⟩ :=
    percentile_ok_elim hok
  have hretdata : ret.data = data := assemble_ok_data has
  have hlen : apRaw.length = kept.prod * N := axisPrep_len hwf ha
  have hrowsEx : ∃ (rows : List (List ℚ)) (g : ℚ → ℤ),
      mapE (fun r => gatherIdx (sortRows kept.prod N apRaw) N kept.prod
        (g r)) (qd.map (rankOf N)) = Except.ok rows ∧
      data = rows.flatten := by
    unfold dispatchGather at hd
    rcases hint with h | h
    · rw [if_pos h] at hd
      obtain ⟨rows, hrows, heq⟩ := exceptMap_ok hd
      injection heq with he1 he2
      exact ⟨rows, _, hrows, he2.symm⟩
    · rw [if_neg (by rw [h]; decide), if_pos h] at hd
      obtain ⟨rows, hrows, heq⟩ := exceptMap_ok hd
      injection heq with he1 he2
      exact ⟨rows, _, hrows, he2.symm⟩
  obtain ⟨rows, g, hrows, hdata⟩ := hrowsEx
  intro idx hidx
  rw [hretdata] at hidx ⊢
  rw [hdata] at hidx ⊢
  obtain ⟨htK, j, hjN, hread⟩ := take_rows_elem hlen hrows idx hidx
  have hgetD : apRaw.getD ((idx % kept.prod) * N + j) 0 =
      rows.flatten.getD idx 0 := by
    rw [List.getD_eq_getElem?_getD, hread]
    rfl
  cases axis with
  | noneAx =>
    unfold axisPrep at ha
    injection ha with ha'
    injection ha' with hkept ha''
    injection ha'' with hN hap
    show rows.flatten.getD idx 0 ∈ a.data
    rw [← hkept] at hread
    rw [← hap] at hread
    have hmod1 : idx % List.prod [] = 0 := by
      show idx % 1 = 0
      omega
    rw [hmod1, Nat.zero_mul, Nat.zero_add] at hread
    obtain ⟨hjlt, hval⟩ := List.getElem?_eq_some_iff.mp hread
    rw [← hval]
    exact List.getElem_mem hjlt
  | intAx i0 =>
    obtain ⟨hkeq, hsl⟩ := axisPrepTup_rows_in_slices ha
    have hkp : keptProdArg a (AxisArg.intAx i0) = kept.prod := by
      show (keptShapeOf a (normAxes a.shape.length [i0])).prod = kept.prod
      rw [hkeq]
    show rows.flatten.getD idx 0 ∈
      sliceVals a (normAxes a.shape.length [i0])
        (idx % keptProdArg a (AxisArg.intAx i0))
    rw [hkp, ← hgetD]
    exact hsl (idx % kept.prod) htK j hjN
  | tupAx l0 =>
    obtain ⟨hkeq, hsl⟩ := axisPrepTup_rows_in_slices ha
    have hkp : keptProdArg a (AxisArg.tupAx l0) = kept.prod := by
      show (keptShapeOf a (normAxes a.shape.length l0)).prod = kept.prod
      rw [hkeq]
    show rows.flatten.getD idx 0 ∈
      sliceVals a (normAxes a.shape.length l0)
        (idx % keptProdArg a (AxisArg.tupAx l0))
    rw [hkp, ← hgetD]
    exact hsl (idx % kept.prod) htK j hjN

theorem claim5_lower_higher_no_synthesized_values_witness :
    (⟨DType.float64, [2], [1, 3]⟩ : NDArray).data.getD 1 0 ∈
      sliceValsArg ⟨DType.float64, [2, 2], [1, 2, 3, 4]⟩ (AxisArg.tupAx [1])
        (1 % keptProdArg ⟨DType.float64, [2, 2], [1, 2, 3, 4]⟩
          (AxisArg.tupAx [1])) :=
  claim5_lower_higher_no_synthesized_values
    ⟨DType.float64, [2, 2], [1, 2, 3, 4]⟩ ⟨[], [50]⟩ (AxisArg.tupAx [1])
    "lower" false ⟨DType.float64, [2], [1, 3]⟩ (by decide) (Or.inl rfl)
    (by decide) 1 (by decide)
